import Mathlib

/-!
# A verification development for the `ls` clone (ls-v1.5.0.c)

The C program is embedded shallowly.  A C string is the list of its bytes
before the terminating NUL, each byte written as a `Char`.  The values the
program handles as `int` / `size_t` are natural numbers here: a terminal
width is a `ws_col` (below `2^16`), a name length is at most `NAME_MAX`, and
entry counts stay far below `2^31`, so no operation of the layout code wraps.
Everything the program obtains from the operating system (directory
contents, `lstat`, the identity database, the terminal size, the local time
formatting) is a field of `Env`.  `strdup` and `realloc` are taken to succeed.
A run in which the process is killed (the long listing hands a null pointer to
`strftime` when `localtime` fails) has the result `none`.
-/

namespace Ls

/-- A C string: its bytes up to the terminating NUL. -/
abbrev Name := List Char

/-! ## The operating system, as the program sees it -/

/-- The fields of `struct stat` that the program reads. -/
structure Stat where
  st_mode : Nat
  st_nlink : Nat
  st_uid : Nat
  st_gid : Nat
  st_size : Nat
  st_mtime : Int
deriving DecidableEq

/-- One run's view of the system.
* `readdir dir` is `none` when `opendir(dir)` fails, else the `d_name`s that successive
  `readdir` calls return, in on-disk order;
* `lstat path` is `none` when `lstat` returns `-1`;
* `getpwuid` / `getgrgid` are `none` when the identity database has no record;
* `winsize` is `none` when `ioctl(TIOCGWINSZ)` returns `-1`, else the reported `ws_col`;
* `strftime t` is the text `strftime(.., "%b %d %H:%M", localtime(&t))` writes, and
  `none` when `localtime(&t)` returns NULL (a time beyond the years a `struct tm` can
  hold): the program hands that null pointer to `strftime` and the process is killed. -/
structure Env where
  readdir : Name → Option (List Name)
  lstat : Name → Option Stat
  getpwuid : Nat → Option Name
  getgrgid : Nat → Option Name
  winsize : Option Nat
  strftime : Int → Option Name

/-- What a call leaves behind: the bytes written to `stdout`, and the messages sent to
`stderr` (for `perror(s)`, the string `s` it was called with). -/
structure Out where
  out : List Char
  err : List Name
deriving DecidableEq

/-- Output of two pieces of code run one after the other. -/
def Out.append (a b : Out) : Out := ⟨a.out ++ b.out, a.err ++ b.err⟩

/-! ## Constants of the system headers and of the program -/

def S_IFMT : Nat := 0o170000
def S_IFSOCK : Nat := 0o140000
def S_IFLNK : Nat := 0o120000
def S_IFREG : Nat := 0o100000
def S_IFBLK : Nat := 0o060000
def S_IFDIR : Nat := 0o040000
def S_IFCHR : Nat := 0o020000
def S_IFIFO : Nat := 0o010000

def S_IRUSR : Nat := 0o400
def S_IWUSR : Nat := 0o200
def S_IXUSR : Nat := 0o100
def S_IRGRP : Nat := 0o040
def S_IWGRP : Nat := 0o020
def S_IXGRP : Nat := 0o010
def S_IROTH : Nat := 0o004
def S_IWOTH : Nat := 0o002
def S_IXOTH : Nat := 0o001

def S_ISDIR (mode : Nat) : Bool := (mode &&& S_IFMT) == S_IFDIR
def S_ISLNK (mode : Nat) : Bool := (mode &&& S_IFMT) == S_IFLNK
def S_ISCHR (mode : Nat) : Bool := (mode &&& S_IFMT) == S_IFCHR
def S_ISBLK (mode : Nat) : Bool := (mode &&& S_IFMT) == S_IFBLK
def S_ISSOCK (mode : Nat) : Bool := (mode &&& S_IFMT) == S_IFSOCK
def S_ISFIFO (mode : Nat) : Bool := (mode &&& S_IFMT) == S_IFIFO

def PATH_MAX : Nat := 4096

def ANSI_RESET : Name := "\x1b[0m".toList
def ANSI_BLUE : Name := "\x1b[0;34m".toList
def ANSI_GREEN : Name := "\x1b[0;32m".toList
def ANSI_RED : Name := "\x1b[0;31m".toList
def ANSI_MAGENTA : Name := "\x1b[0;35m".toList
def ANSI_REVERSE : Name := "\x1b[7m".toList

/-! ## libc -/

/-- The function `strcmp`: the strings are compared byte by byte as unsigned values; the result is
the difference at the first position where they differ, and 0 when both end (a NUL
byte ends a string). -/
def strcmp : Name → Name → Int
  | [], [] => 0
  | [], b :: _ => 0 - (b.toNat : Int)
  | a :: _, [] => (a.toNat : Int) - 0
  | a :: as, b :: bs =>
    if a = b then (if a.toNat = 0 then 0 else strcmp as bs)
    else (a.toNat : Int) - (b.toNat : Int)

/-- The function `strstr(hay, needle)`: the offset of the first occurrence of `needle` in `hay`,
`none` for the NULL result. -/
def strstr : Name → Name → Option Nat
  | [], needle => if needle.isEmpty then some 0 else none
  | h :: t, needle =>
    if needle.isPrefixOf (h :: t) then some 0 else (strstr t needle).map (· + 1)

/-- Insertion of one element at its place by the comparator. -/
def qsort_insert (compar : Name → Name → Int) (x : Name) : List Name → List Name
  | [] => [x]
  | y :: ys => if compar x y ≤ 0 then x :: y :: ys else y :: qsort_insert compar x ys

/-- The function `qsort(base, n, size, compar)`: the array rearranged into ascending order of
`compar`.  The rearrangement is computed here by insertion. -/
def qsort (compar : Name → Name → Int) : List Name → List Name
  | [] => []
  | x :: xs => qsort_insert compar x (qsort compar xs)

/-- The conversion `printf("%-8s", s)` and the like: left-aligned, padded with spaces to `width`,
never truncated. -/
def pad_right (width : Nat) (s : Name) : Name :=
  s ++ List.replicate (width - s.length) ' '

/-- The conversion `printf("%2ld", n)` and the like: right-aligned, padded with spaces to `width`,
never truncated. -/
def pad_left (width : Nat) (s : Name) : Name :=
  List.replicate (width - s.length) ' ' ++ s

/-- The decimal digits `printf("%ld", n)` writes for a non-negative `n`. -/
def decimal (n : Nat) : Name := Nat.toDigits 10 n

/-! ## Helpers (lines 51-132) -/

/-- The function `get_terminal_width` (lines 51-56). -/
def get_terminal_width (env : Env) : Nat :=
  match env.winsize with
  | none => 80
  | some ws_col => if ws_col = 0 then 80 else ws_col

/-- The function `compare_names` (lines 58-62). -/
def compare_names (n1 n2 : Name) : Int := strcmp n1 n2

/-- The table `exts` of `is_archive_name`. -/
def exts : List Name :=
  [".tar".toList, ".gz".toList, ".zip".toList, ".tgz".toList, ".bz2".toList, ".xz".toList]

/-- The body of the loop of `is_archive_name` for one extension: `p = strstr(name, ext)`,
then `pos + strlen(ext) == len` (the second operand of `p && (..)` is always true). -/
def archive_ext_matches (name ext : Name) : Bool :=
  match strstr name ext with
  | none => false
  | some pos => pos + ext.length == name.length

/-- The function `is_archive_name` (lines 65-80): true as soon as one extension of the table passes
the test of the loop body. -/
def is_archive_name (name : Name) : Bool :=
  exts.any (archive_ext_matches name)

/-- The block "Choose color/style" of `print_colored_name_no_pad` (lines 99-116): the
pair `(start, end)`. -/
def choose_color (st_mode : Nat) (name : Name) : Name × Name :=
  if S_ISLNK st_mode then (ANSI_MAGENTA, ANSI_RESET)
  else if S_ISDIR st_mode then (ANSI_BLUE, ANSI_RESET)
  else if S_ISCHR st_mode || S_ISBLK st_mode || S_ISSOCK st_mode || S_ISFIFO st_mode then
    (ANSI_REVERSE, ANSI_RESET)
  else if (st_mode &&& (S_IXUSR ||| S_IXGRP ||| S_IXOTH)) ≠ 0 then (ANSI_GREEN, ANSI_RESET)
  else if is_archive_name name then (ANSI_RED, ANSI_RESET)
  else ([], [])

/-- The function `print_colored_name_no_pad` (lines 83-122): the bytes written for `name` in `dir`. -/
def print_colored_name_no_pad (env : Env) (dir name : Name) : Name :=
  let path := dir ++ '/' :: name
  let printed := path.length
  if printed ≥ PATH_MAX then name
  else
    match env.lstat path with
    | none => name
    | some st =>
      let color := choose_color st.st_mode name
      if color.1 ≠ [] then color.1 ++ name ++ color.2 else name

/-- The padding computed after a name: `pad = col_width - (int)name_len;
if (pad < 1) pad = 1;` (lines 129-130 and 262-263). -/
def pad_of (col_width : Nat) (name : Name) : Nat :=
  let pad : Int := (col_width : Int) - (name.length : Int)
  let pad := if pad < 1 then 1 else pad
  pad.toNat

/-- The function `print_colored_name_padded` (lines 126-132). -/
def print_colored_name_padded (env : Env) (dir name : Name) (col_width : Nat) : Name :=
  print_colored_name_no_pad env dir name ++ List.replicate (pad_of col_width name) ' '

/-! ## Reading a directory (lines 178-197, 229-245, 282-295) -/

/-- The running maximum of the read loop: `if (L > max_len) max_len = L;`. -/
def max_len_step (max_len : Nat) (dup : Name) : Nat :=
  if dup.length > max_len then dup.length else max_len

/-- One iteration of the read loop on the entry `d_name`, the state being `files` and
`max_len`: an entry whose first byte is `.` is skipped, any other one is appended. -/
def read_step (state : List Name × Nat) (d_name : Name) : List Name × Nat :=
  if d_name.head? = some '.' then state
  else (state.1 ++ [d_name], max_len_step state.2 d_name)

/-- The read loop of `do_ls` and `do_ls_horizontal`; `do_ls_long` runs the same loop
without `max_len`. -/
def read_loop (children : List Name) : List Name × Nat :=
  children.foldl read_step ([], 0)

/-- The array the three listing functions go on to render: read loop, then `qsort`. -/
def sorted_files (children : List Name) : List Name :=
  qsort compare_names (read_loop children).1

/-- The value of `max_len` after the read loop has stored `files`. -/
def max_len_of (files : List Name) : Nat :=
  files.foldl max_len_step 0

/-! ## The layout plan of `do_ls` (lines 199-205) -/

/-- The column width: `col_width = (int)max_len + spacing; if (col_width < 1) col_width = 1;`
with `spacing = 2`. -/
def col_width_of (max_len : Nat) : Nat :=
  let spacing := 2
  let col_width := max_len + spacing
  if col_width < 1 then 1 else col_width

/-- The column count: `cols = term_width / col_width; if (cols < 1) cols = 1;`. -/
def cols_of (term_width col_width : Nat) : Nat :=
  let cols := term_width / col_width
  if cols < 1 then 1 else cols

/-- The row count: `rows = (int)((count + cols - 1) / cols);`. -/
def rows_of (count cols : Nat) : Nat :=
  (count + cols - 1) / cols

/-! ## The grid loop of `do_ls` (lines 207-214) -/

/-- The test `if ((size_t)idx >= count) continue;`: the cell is printed only for an
index below `count`. -/
def keep_idx (count idx : Nat) : Option Nat :=
  if idx ≥ count then none else some idx

/-- The inner loop of `do_ls` for row `r`: the indices `idx = c * rows + r`, for
`c = 0 .. cols - 1`, that are printed. -/
def do_ls_row (count rows cols r : Nat) : List Nat :=
  (List.range cols).filterMap fun c => keep_idx count (c * rows + r)

/-- The outer loop of `do_ls`: one list of printed indices per row `r = 0 .. rows - 1`. -/
def do_ls_grid (count rows cols : Nat) : List (List Nat) :=
  (List.range rows).map (do_ls_row count rows cols)

/-- The grid of names `do_ls` prints for the sorted array `files` on a terminal of
width `term_width`, `max_len` being the longest name length found by the read loop. -/
def do_ls_cells (files : List Name) (max_len term_width : Nat) : List (List Name) :=
  let count := files.length
  let col_width := col_width_of max_len
  let cols := cols_of term_width col_width
  let rows := rows_of count cols
  (do_ls_grid count rows cols).map fun row => row.map fun idx => files.getD idx []

/-- The function `do_ls` (lines 170-218). -/
def do_ls (env : Env) (dir : Name) : Out :=
  match env.readdir dir with
  | none => ⟨[], [dir]⟩
  | some children =>
    let max_len := (read_loop children).2
    if (read_loop children).1.length = 0 then ⟨[], []⟩
    else
      let files := sorted_files children
      let term_width := get_terminal_width env
      let col_width := col_width_of max_len
      ⟨(do_ls_cells files max_len term_width).flatMap fun row =>
          (row.flatMap fun name => print_colored_name_padded env dir name col_width) ++ ['\n'],
        []⟩

/-- The widest row of a printed grid. -/
def gridWidth {α : Type} (grid : List (List α)) : Nat :=
  grid.foldr (fun row w => max row.length w) 0

/-- Reading a printed grid column-major: column 0 top to bottom, then column 1, and so
on; a row that has no cell in a column contributes nothing there. -/
def columnMajor {α : Type} (grid : List (List α)) : List α :=
  (List.range (gridWidth grid)).flatMap fun c => grid.filterMap fun row => row[c]?

/-! ## Horizontal display (lines 247-267) -/

/-- One iteration of the loop of `do_ls_horizontal`, as it happened: the value of
`current` when the test `current + col_width > term_width` was made, whether
`putchar('\n')` was executed, and the name then printed.  `placed` is not a variable of
the program: it counts the names already written on the line being filled when the test
was made. -/
structure HStep where
  current : Nat
  placed : Nat
  brk : Bool
  name : Name
deriving DecidableEq

/-- The loop of `do_ls_horizontal` over the remaining names, from the value `current`
(and the count `placed` that goes with it). -/
def horizontal_loop (col_width term_width : Nat) : Nat → Nat → List Name → List HStep
  | _, _, [] => []
  | current, placed, name :: rest =>
    if current + col_width > term_width then
      ⟨current, placed, true, name⟩ ::
        horizontal_loop col_width term_width (0 + col_width) (0 + 1) rest
    else
      ⟨current, placed, false, name⟩ ::
        horizontal_loop col_width term_width (current + col_width) (placed + 1) rest

/-- The loop of `do_ls_horizontal` once more, its output cut at the line breaks: `line`
holds the names written since the last `putchar('\n')`; the `putchar('\n')` after the
loop ends the last line. -/
def horizontal_lines (col_width term_width : Nat) : Nat → List Name → List Name → List (List Name)
  | _, line, [] => [line]
  | current, line, name :: rest =>
    if current + col_width > term_width then
      line :: horizontal_lines col_width term_width (0 + col_width) [name] rest
    else
      horizontal_lines col_width term_width (current + col_width) (line ++ [name]) rest

/-- The bytes one iteration writes: the line break if any, the coloured name, the pad. -/
def horizontal_bytes (env : Env) (dir : Name) (col_width : Nat) (s : HStep) : Name :=
  (if s.brk then ['\n'] else []) ++ print_colored_name_no_pad env dir s.name
    ++ List.replicate (pad_of col_width s.name) ' '

/-- The function `do_ls_horizontal` (lines 221-271). -/
def do_ls_horizontal (env : Env) (dir : Name) : Out :=
  match env.readdir dir with
  | none => ⟨[], [dir]⟩
  | some children =>
    let max_len := (read_loop children).2
    if (read_loop children).1.length = 0 then ⟨[], []⟩
    else
      let files := sorted_files children
      let term_width := get_terminal_width env
      let col_width := col_width_of max_len
      ⟨((horizontal_loop col_width term_width 0 0 files).flatMap
          (horizontal_bytes env dir col_width)) ++ ['\n'], []⟩

/-! ## Long listing (lines 274-355) -/

/-- The character of one permission bit: `(mode & bit) ? letter : '-'`. -/
def perm_char (mode bit : Nat) (letter : Char) : Char :=
  if (mode &&& bit) ≠ 0 then letter else '-'

/-- The function `print_permissions` (lines 334-355): the bytes of `perms` before its NUL. -/
def print_permissions (mode : Nat) : Name :=
  [ (if S_ISDIR mode then 'd'
     else if S_ISLNK mode then 'l'
     else if S_ISCHR mode then 'c'
     else if S_ISBLK mode then 'b'
     else if S_ISSOCK mode then 's'
     else if S_ISFIFO mode then 'p' else '-'),
    perm_char mode S_IRUSR 'r', perm_char mode S_IWUSR 'w', perm_char mode S_IXUSR 'x',
    perm_char mode S_IRGRP 'r', perm_char mode S_IWGRP 'w', perm_char mode S_IXGRP 'x',
    perm_char mode S_IROTH 'r', perm_char mode S_IWOTH 'w', perm_char mode S_IXOTH 'x' ]

/-- The owner shown: `pw ? pw->pw_name : "unknown"`. -/
def owner_field (env : Env) (st : Stat) : Name :=
  match env.getpwuid st.st_uid with
  | some pw_name => pw_name
  | none => "unknown".toList

/-- The group shown: `gr ? gr->gr_name : "unknown"`. -/
def group_field (env : Env) (st : Stat) : Name :=
  match env.getgrgid st.st_gid with
  | some gr_name => gr_name
  | none => "unknown".toList

/-- The function `print_file_details` (lines 307-331).  The result is `none` when the
process is killed: `localtime` returns NULL for the modification time and line 325 passes
it to `strftime` unchecked.  What had reached the streams by then is not modelled. -/
def print_file_details (env : Env) (path filename : Name) : Option Out :=
  match env.lstat path with
  | none => some ⟨[], ["stat".toList]⟩
  | some st =>
    match env.strftime st.st_mtime with
    | none => none
    | some timebuf =>
      some ⟨print_permissions st.st_mode
        ++ ' ' :: pad_left 2 (decimal st.st_nlink)
        ++ ' ' :: pad_right 8 (owner_field env st) ++ ' ' :: pad_right 8 (group_field env st)
        ++ ' ' :: pad_left 8 (decimal st.st_size)
        ++ ' ' :: timebuf ++ [' ']
        ++ print_colored_name_no_pad env ".".toList filename
        ++ ['\n'], []⟩

/-- The path built by `snprintf(path, sizeof(path), "%s/%s", dir, files[i])`: at most
`PATH_MAX - 1` bytes are kept. -/
def long_path (dir name : Name) : Name :=
  (dir ++ '/' :: name).take (PATH_MAX - 1)

/-- The loop of `do_ls_long` (lines 297-302) over the remaining names, `acc` being what
has been written so far; `none` when a call of `print_file_details` kills the process. -/
def do_ls_long_loop (env : Env) (dir : Name) : Out → List Name → Option Out
  | acc, [] => some acc
  | acc, name :: rest =>
    match print_file_details env (long_path dir name) name with
    | none => none
    | some line => do_ls_long_loop env dir (acc.append line) rest

/-- The function `do_ls_long` (lines 274-304); `none` when the process is killed. -/
def do_ls_long (env : Env) (dir : Name) : Option Out :=
  match env.readdir dir with
  | none => some ⟨[], [dir]⟩
  | some children =>
    if (read_loop children).1.length = 0 then some ⟨[], []⟩
    else do_ls_long_loop env dir ⟨[], []⟩ (sorted_files children)

/-! ## `main` (lines 138-167) -/

inductive DisplayMode where
  | DEFAULT
  | LONG_LIST
  | HORIZONTAL
deriving DecidableEq

/-- The option loop of `main`, over the option characters `getopt` meets on the command
line: the mode selected, or the first character that is not in `"lx"`, for which `getopt`
returns `?` and the `default:` branch is taken. -/
def parse_options : DisplayMode → List Char → Except Char DisplayMode
  | mode, [] => Except.ok mode
  | _, opt :: rest =>
    if opt = 'l' then parse_options DisplayMode.LONG_LIST rest
    else if opt = 'x' then parse_options DisplayMode.HORIZONTAL rest
    else Except.error opt

/-- The listing function `main` calls for the selected mode; `none` when the process is
killed. -/
def list_dir (env : Env) (mode : DisplayMode) (dir : Name) : Option Out :=
  match mode with
  | DisplayMode.LONG_LIST => do_ls_long env dir
  | DisplayMode.HORIZONTAL => some (do_ls_horizontal env dir)
  | DisplayMode.DEFAULT => some (do_ls env dir)

def EXIT_FAILURE : Int := 1

/-- The diagnostic `getopt` itself sends to `stderr` for an option character that is not
in the option string (`opterr` is left at 1): `argv0: invalid option -- 'c'`. -/
def getopt_diagnostic (argv0 : Name) (opt : Char) : Name :=
  argv0 ++ ": invalid option -- ".toList ++ [Char.ofNat 39, opt, Char.ofNat 39, '\n']

/-- The usage line of the `default:` branch. -/
def usage_line (argv0 : Name) : Name :=
  "Usage: ".toList ++ argv0 ++ " [-l] [-x] [directory...]\n".toList

/-- What `main` writes around the listing of one directory argument: the header line,
the listing, the empty line of `puts("")`. -/
def framed_listing (dir : Name) (listing : Out) : Out :=
  (Out.append ⟨"Directory listing of ".toList ++ dir ++ ":\n".toList, []⟩ listing).append
    ⟨['\n'], []⟩

/-- The loop of `main` over the directory arguments (lines 157-163), `acc` being what has
been written so far; `none` when a listing kills the process. -/
def main_loop (env : Env) (mode : DisplayMode) : Out → List Name → Option Out
  | acc, [] => some acc
  | acc, dir :: rest =>
    match list_dir env mode dir with
    | none => none
    | some listing => main_loop env mode (acc.append (framed_listing dir listing)) rest

/-- The function `main`: `opts` are the option characters of the command line, `dirs` the
arguments from `argv[optind]` on.  The result is the output and the exit status of the
process, `none` when the process is killed before `main` returns or exits. -/
def main (env : Env) (argv0 : Name) (opts : List Char) (dirs : List Name) :
    Option (Out × Int) :=
  match parse_options DisplayMode.DEFAULT opts with
  | Except.error opt =>
    some (⟨[], [getopt_diagnostic argv0 opt, usage_line argv0]⟩, EXIT_FAILURE)
  | Except.ok mode =>
    if dirs.length = 0 then (list_dir env mode ".".toList).map fun out => (out, 0)
    else (main_loop env mode ⟨[], []⟩ dirs).map fun out => (out, 0)

/-! ## The vocabulary of the specification -/

/-- The `type` of an entry's metadata (specification, data model), read off the file-type
bits `st_mode & S_IFMT`. -/
inductive EntryType where
  | regular
  | directory
  | symlink
  | char_device
  | block_device
  | socket
  | fifo
  | unknown
deriving DecidableEq

/-- The entry type a mode stands for. -/
def entry_type (mode : Nat) : EntryType :=
  if (mode &&& S_IFMT) = S_IFREG then EntryType.regular
  else if (mode &&& S_IFMT) = S_IFDIR then EntryType.directory
  else if (mode &&& S_IFMT) = S_IFLNK then EntryType.symlink
  else if (mode &&& S_IFMT) = S_IFCHR then EntryType.char_device
  else if (mode &&& S_IFMT) = S_IFBLK then EntryType.block_device
  else if (mode &&& S_IFMT) = S_IFSOCK then EntryType.socket
  else if (mode &&& S_IFMT) = S_IFIFO then EntryType.fifo
  else EntryType.unknown

/-- The display categories of the specification. -/
inductive DisplayCategory where
  | Directory
  | Executable
  | Archive
  | Symlink
  | Special
  | Plain
deriving DecidableEq

/-- The classifier in the words of the specification (section 4.3): symlink, else
directory, else special, else executable when any execute bit is set, else archive when
the archive test on the name holds, else plain. -/
def classify_spec (type : EntryType) (any_exec archive : Bool) : DisplayCategory :=
  if type = EntryType.symlink then DisplayCategory.Symlink
  else if type = EntryType.directory then DisplayCategory.Directory
  else if type = EntryType.char_device ∨ type = EntryType.block_device
      ∨ type = EntryType.socket ∨ type = EntryType.fifo then DisplayCategory.Special
  else if any_exec then DisplayCategory.Executable
  else if archive then DisplayCategory.Archive
  else DisplayCategory.Plain

/-- The markup of each category (header comment of the program, lines 9-14): the start
sequence and the end sequence. -/
def category_markup : DisplayCategory → Name × Name
  | DisplayCategory.Directory => (ANSI_BLUE, ANSI_RESET)
  | DisplayCategory.Executable => (ANSI_GREEN, ANSI_RESET)
  | DisplayCategory.Archive => (ANSI_RED, ANSI_RESET)
  | DisplayCategory.Symlink => (ANSI_MAGENTA, ANSI_RESET)
  | DisplayCategory.Special => (ANSI_REVERSE, ANSI_RESET)
  | DisplayCategory.Plain => ([], [])

/-- The type glyph of the permission string in the words of the specification
(section 4.6). -/
def type_glyph : EntryType → Char
  | EntryType.directory => 'd'
  | EntryType.symlink => 'l'
  | EntryType.char_device => 'c'
  | EntryType.block_device => 'b'
  | EntryType.socket => 's'
  | EntryType.fifo => 'p'
  | EntryType.regular => '-'
  | EntryType.unknown => '-'

/-- Whether some execute bit (owner, group or other) of the mode is set. -/
def any_exec_bit (mode : Nat) : Bool :=
  mode.testBit 6 || mode.testBit 3 || mode.testBit 0

/-- The nine permission letters, owner / group / other, each read, write, execute. -/
def perm_letters : List Char := "rwxrwxrwx".toList

/-! ## A sample system, for concrete runs -/

/-- A `struct stat` of the sample system with the given mode: one link, owner and group
1000, size 4096. -/
def sample_stat (mode : Nat) : Stat := ⟨mode, 1, 1000, 1000, 4096, 0⟩

/-- A sample system.  The current directory holds `banana`, `Apple` and `.hidden`; the
directory `sub` holds `x`, itself a directory, while `./x` is an executable regular file;
`./lnk` is a symlink with all permission
bits set and `./run.gz` an executable regular file; `nodir` cannot be opened; only
uid 0 and gid 0 have a name; the terminal reports 20 columns. -/
def sample_env : Env where
  readdir := fun dir =>
    if dir = ".".toList then some ["banana".toList, "Apple".toList, ".hidden".toList]
    else if dir = "sub".toList then some ["x".toList]
    else none
  lstat := fun path =>
    if path = "sub/x".toList then some (sample_stat 0o040755)
    else if path = "./x".toList then some (sample_stat 0o100755)
    else if path = "./lnk".toList then some (sample_stat 0o120777)
    else if path = "./run.gz".toList then some (sample_stat 0o100755)
    else if path = "./Apple".toList then some (sample_stat 0o100644)
    else if path = "./banana".toList then some (sample_stat 0o100644)
    else none
  getpwuid := fun uid => if uid = 0 then some "root".toList else none
  getgrgid := fun gid => if gid = 0 then some "root".toList else none
  winsize := some 20
  strftime := fun _ => some "Jan 01 00:00".toList

/-- The sample system on a terminal of 5 columns whose current directory holds the single
entry `abcdefgh`. -/
def narrow_env : Env where
  readdir := fun dir => if dir = ".".toList then some ["abcdefgh".toList] else none
  lstat := fun _ => none
  getpwuid := fun _ => none
  getgrgid := fun _ => none
  winsize := some 5
  strftime := fun _ => some "Jan 01 00:00".toList

/-! ## Cells and lines, for the statements on alignment -/

/-- The category under which a name of `dir` is displayed: the classifier of the
specification on the metadata `lstat` gives for `dir/name`, and plain when the path
does not fit `PATH_MAX` or `lstat` fails. -/
def category_of (env : Env) (dir name : Name) : DisplayCategory :=
  if (dir ++ '/' :: name).length ≥ PATH_MAX then DisplayCategory.Plain
  else
    match env.lstat (dir ++ '/' :: name) with
    | none => DisplayCategory.Plain
    | some st =>
      classify_spec (entry_type st.st_mode) (any_exec_bit st.st_mode) (is_archive_name name)

/-- A cell as the specification describes it: the start sequence of the category, the
name, the end sequence, then `max(1, col_width - len(name))` spaces. -/
def cell_of (cat : DisplayCategory) (name : Name) (col_width : Nat) : Name :=
  (category_markup cat).1 ++ name ++ (category_markup cat).2
    ++ List.replicate (max 1 (col_width - name.length)) ' '

/-- The visible width of the cell of a name: the bytes of the name and of the padding. -/
def visible_width (col_width : Nat) (name : Name) : Nat :=
  name.length + pad_of col_width name

/-- The visible width of a line of cells. -/
def line_width (col_width : Nat) (line : List Name) : Nat :=
  (line.map (visible_width col_width)).sum

/-- The bytes of one output line: its cells, then the line break. -/
def render_line (env : Env) (dir : Name) (col_width : Nat) (line : List Name) : Name :=
  (line.flatMap fun name => print_colored_name_padded env dir name col_width) ++ ['\n']

/-- The system of the worked layout scenario: the current directory holds `ccc`, `a` and
`bb`, all regular files without execute bit; the terminal reports 20 columns. -/
def scenario_env : Env where
  readdir := fun dir =>
    if dir = ".".toList then some ["ccc".toList, "a".toList, "bb".toList] else none
  lstat := fun _ => some (sample_stat 0o100644)
  getpwuid := fun _ => none
  getgrgid := fun _ => none
  winsize := some 20
  strftime := fun _ => some "Jan 01 00:00".toList

/-! ## Further vocabulary: archive suffixes, decimal numerals, runs -/

/-- The archive test in the words of the specification: the name ends with one of the
six extensions. -/
def has_archive_suffix (name : Name) : Bool :=
  exts.any fun ext => ext.isSuffixOf name

/-- The value of a decimal digit. -/
def digit_value (c : Char) : Nat := c.toNat - '0'.toNat

/-- The number a string of decimal digits denotes, most significant digit first. -/
def decimal_value (s : Name) : Nat :=
  s.foldl (fun acc c => 10 * acc + digit_value c) 0

/-- Several pieces of code run one after the other, each of which may kill the process:
their outputs in order, and `none` as soon as one of them is `none`. -/
def concat_runs : List (Option Out) → Option Out
  | [] => some ⟨[], []⟩
  | none :: _ => none
  | some out :: rest => (concat_runs rest).map fun later => out.append later

/-- A system whose current directory lists the single entry `late`, a regular file whose
modification time `2^62` is beyond what `localtime` converts (the last second of the year
2147485547, the last one a `struct tm` holds, is 67768036191676799 in UTC); `./big` is a
regular file of 123456789 bytes with 12 links, owned by uid 0 and gid 0, which have the
name `root`. -/
def late_env : Env where
  readdir := fun dir => if dir = ".".toList then some ["late".toList] else none
  lstat := fun path =>
    if path = "./late".toList then some ⟨0o100644, 1, 1000, 1000, 4096, 2 ^ 62⟩
    else if path = "./big".toList then some ⟨0o100644, 12, 0, 0, 123456789, 0⟩
    else none
  getpwuid := fun uid => if uid = 0 then some "root".toList else none
  getgrgid := fun gid => if gid = 0 then some "root".toList else none
  winsize := some 80
  strftime := fun t =>
    if t ≤ 67768036191676799 then some "Jan 01 00:00".toList else none

theorem filterMap_range_all_some {α : Type} (f : Nat → Option α) (m : Nat)
    (h : ∀ c, c < m → f c ≠ none) : ((List.range m).filterMap f).length = m := by
  induction m with
  | zero => simp
  | succ m ih =>
    rw [List.range_succ, List.filterMap_append, List.length_append,
      ih (fun c hc => h c (Nat.lt_succ_of_lt hc))]
    have hm := h m (Nat.lt_succ_self m)
    cases hfm : f m with
    | none => exact absurd hfm hm
    | some a => simp [List.filterMap_cons, hfm]

theorem none_of_le {α : Type} (f : Nat → Option α)
    (hmono : ∀ c, f c = none → f (c + 1) = none) (c d : Nat) (hcd : c ≤ d)
    (hc : f c = none) : f d = none := by
  induction d with
  | zero =>
    have : c = 0 := Nat.le_zero.mp hcd
    subst this; exact hc
  | succ d ih =>
    rcases Nat.lt_or_ge c (d + 1) with hlt | hge
    · exact hmono d (ih (Nat.lt_succ_iff.mp hlt))
    · have : c = d + 1 := Nat.le_antisymm hcd hge
      subst this; exact hc

/-- When `f` stays `none` once it is `none`, the cells kept from `0 .. m-1` sit at their
own positions: nothing is skipped before a kept cell. -/
theorem filterMap_range_getElem? {α : Type} (f : Nat → Option α)
    (hmono : ∀ c, f c = none → f (c + 1) = none) (m c : Nat) :
    ((List.range m).filterMap f)[c]? = if c < m then f c else none := by
  induction m generalizing c with
  | zero => simp
  | succ m ih =>
    rw [List.range_succ, List.filterMap_append]
    cases hfm : f m with
    | none =>
      have hnil : List.filterMap f [m] = [] := by simp [List.filterMap_cons, hfm]
      rw [hnil, List.append_nil, ih]
      by_cases hc : c < m
      · simp [hc, Nat.lt_succ_of_lt hc]
      · by_cases hc' : c < m + 1
        · have : c = m := by omega
          subst this; simp [hfm]
        · simp [hc, hc']
    | some a =>
      have hone : List.filterMap f [m] = [a] := by simp [List.filterMap_cons, hfm]
      have hlen : ((List.range m).filterMap f).length = m := by
        apply filterMap_range_all_some
        intro d hd hnone
        have := none_of_le f hmono d m (Nat.le_of_lt hd) hnone
        rw [hfm] at this; cases this
      rw [hone, List.getElem?_append, hlen]
      by_cases hc : c < m
      · simp [hc, Nat.lt_succ_of_lt hc, ih]
      · by_cases hc' : c < m + 1
        · have : c = m := by omega
          subst this; simp [hfm]
        · have h1 : c - m = (c - m - 1) + 1 := by omega
          rw [if_neg hc, if_neg hc', h1]; rfl

theorem length_le_gridWidth {α : Type} (grid : List (List α)) :
    ∀ row ∈ grid, row.length ≤ gridWidth grid := by
  induction grid with
  | nil => intro row h; cases h
  | cons g gs ih =>
    intro row h
    rcases List.mem_cons.mp h with h | h
    · subst h; exact Nat.le_max_left _ _
    · exact Nat.le_trans (ih row h) (Nat.le_max_right _ _)

theorem gridWidth_le {α : Type} (grid : List (List α)) (m : Nat)
    (h : ∀ row ∈ grid, row.length ≤ m) : gridWidth grid ≤ m := by
  induction grid with
  | nil => exact Nat.zero_le _
  | cons g gs ih =>
    exact Nat.max_le.mpr ⟨h g (List.mem_cons_self _ _),
      ih (fun row hr => h row (List.mem_cons_of_mem _ hr))⟩

/-- Reading column-major may run over any number of columns that covers the widest row. -/
theorem columnMajor_eq {α : Type} (grid : List (List α)) (m : Nat)
    (h : ∀ row ∈ grid, row.length ≤ m) :
    columnMajor grid = (List.range m).flatMap fun c => grid.filterMap fun row => row[c]? := by
  obtain ⟨d, rfl⟩ := Nat.exists_eq_add_of_le (gridWidth_le grid m h)
  rw [List.range_add, List.flatMap_append, List.flatMap_map]
  have hnil : ((List.range d).flatMap fun a =>
      grid.filterMap fun row => row[gridWidth grid + a]?) = [] := by
    rw [List.flatMap_eq_nil_iff]
    intro a _
    rw [List.filterMap_eq_nil_iff]
    intro row hrow
    exact List.getElem?_eq_none
      (Nat.le_trans (length_le_gridWidth grid row hrow) (Nat.le_add_right _ _))
  rw [hnil, List.append_nil]; rfl

theorem columnMajor_map {α β : Type} (g : α → β) (grid : List (List α)) :
    columnMajor (grid.map (List.map g)) = (columnMajor grid).map g := by
  rw [columnMajor_eq (grid.map (List.map g)) (gridWidth grid), columnMajor, List.map_flatMap]
  · congr 1
    funext c
    rw [List.filterMap_map, List.map_filterMap]
    congr 1
    funext row
    simp [List.getElem?_map]
  · intro row hrow
    obtain ⟨r, hr, rfl⟩ := List.mem_map.mp hrow
    rw [List.length_map]; exact length_le_gridWidth grid r hr

theorem keep_idx_mono (count rows r : Nat) (c : Nat)
    (h : keep_idx count (c * rows + r) = none) : keep_idx count ((c + 1) * rows + r) = none := by
  unfold keep_idx at *
  split at h
  · rename_i hge
    have : (c + 1) * rows + r ≥ count := by
      have : (c + 1) * rows = c * rows + rows := Nat.succ_mul c rows
      omega
    simp [this]
  · cases h

theorem do_ls_row_eq (count rows cols r : Nat) :
    do_ls_row count rows cols r
      = (List.range cols).filterMap fun c => keep_idx count (c * rows + r) := rfl

theorem do_ls_row_getElem? (count rows cols r c : Nat) :
    (do_ls_row count rows cols r)[c]?
      = if c < cols then keep_idx count (c * rows + r) else none := by
  rw [do_ls_row_eq]
  exact filterMap_range_getElem? (fun c => keep_idx count (c * rows + r))
    (keep_idx_mono count rows r) cols c

theorem do_ls_row_length_le (count rows cols r : Nat) :
    (do_ls_row count rows cols r).length ≤ cols := by
  rw [do_ls_row_eq]
  exact Nat.le_trans (List.length_filterMap_le _ _) (by simp)

/-- Column by column, the cells of the grid are the indices `0 .. cols * rows - 1` in
increasing order, those `>= count` left out. -/
theorem flatMap_columns (count rows cols : Nat) :
    ((List.range cols).flatMap fun c =>
        (List.range rows).filterMap fun r => keep_idx count (c * rows + r))
      = (List.range (cols * rows)).filterMap (keep_idx count) := by
  induction cols with
  | zero => simp
  | succ k ih =>
    rw [List.range_succ, List.flatMap_append, ih, Nat.succ_mul, List.range_add,
      List.filterMap_append, List.filterMap_map]
    simp [List.flatMap_cons, Function.comp_def]

theorem filterMap_keep_idx (count m : Nat) (h : count ≤ m) :
    (List.range m).filterMap (keep_idx count) = List.range count := by
  obtain ⟨d, rfl⟩ := Nat.exists_eq_add_of_le h
  rw [List.range_add, List.filterMap_append, List.filterMap_map]
  have h1 : (List.range count).filterMap (keep_idx count) = List.range count := by
    have : ∀ l : List Nat, (∀ i ∈ l, i < count) → l.filterMap (keep_idx count) = l := by
      intro l
      induction l with
      | nil => intro _; rfl
      | cons a t ih =>
        intro hl
        have ha : ¬ a ≥ count := Nat.not_le.mpr (hl a (List.mem_cons_self _ _))
        rw [List.filterMap_cons]
        simp only [keep_idx, ha, if_false]
        rw [ih (fun i hi => hl i (List.mem_cons_of_mem _ hi))]
    exact this _ (fun i hi => List.mem_range.mp hi)
  have h2 : (List.range d).filterMap (keep_idx count ∘ fun x => count + x) = [] := by
    rw [List.filterMap_eq_nil_iff]
    intro a _
    simp [keep_idx]
  rw [h1, h2, List.append_nil]

/-- Read column-major, the index grid is `0, 1, .., count - 1` as soon as the grid has
room for `count` cells. -/
theorem columnMajor_do_ls_grid (count rows cols : Nat) (h : count ≤ cols * rows) :
    columnMajor (do_ls_grid count rows cols) = List.range count := by
  rw [columnMajor_eq _ cols]
  · rw [← filterMap_keep_idx count (cols * rows) h, ← flatMap_columns]
    apply List.flatMap_congr
    intro c hc
    have hc' : c < cols := List.mem_range.mp hc
    unfold do_ls_grid
    rw [List.filterMap_map]
    congr 1
    funext r
    simp [do_ls_row_getElem?, hc']
  · intro row hrow
    obtain ⟨r, _, rfl⟩ := List.mem_map.mp hrow
    exact do_ls_row_length_le count rows cols r


theorem mem_do_ls_row (count rows cols r i : Nat) :
    i ∈ do_ls_row count rows cols r ↔ ∃ c, c < cols ∧ c * rows + r = i ∧ i < count := by
  rw [do_ls_row_eq, List.mem_filterMap]
  constructor
  · rintro ⟨c, hc, hk⟩
    unfold keep_idx at hk
    split at hk
    · cases hk
    · rename_i hlt
      cases hk
      exact ⟨c, List.mem_range.mp hc, rfl, Nat.not_le.mp hlt⟩
  · rintro ⟨c, hc, rfl, hlt⟩
    exact ⟨c, List.mem_range.mpr hc, by simp [keep_idx, Nat.not_le.mpr hlt]⟩

theorem do_ls_row_nodup (count rows cols r : Nat) (hrows : 0 < rows) :
    (do_ls_row count rows cols r).Nodup := by
  rw [do_ls_row_eq]
  apply List.Nodup.filterMap _ (List.nodup_range cols)
  intro a a' b hb hb'
  have h1 : a * rows + r = b := by
    unfold keep_idx at hb; split at hb
    · cases hb
    · cases hb; rfl
  have h2 : a' * rows + r = b := by
    unfold keep_idx at hb'; split at hb'
    · cases hb'
    · cases hb'; rfl
  have h3 : a * rows = a' * rows := by omega
  exact Nat.eq_of_mul_eq_mul_right hrows h3

theorem do_ls_grid_flatten_nodup (count rows cols : Nat) :
    (do_ls_grid count rows cols).flatten.Nodup := by
  unfold do_ls_grid
  rw [← List.flatMap_def, List.nodup_flatMap]
  constructor
  · intro r hr
    exact do_ls_row_nodup count rows cols r (Nat.lt_of_le_of_lt (Nat.zero_le _) (List.mem_range.mp hr))
  · apply List.Pairwise.imp_of_mem _ (List.pairwise_lt_range rows)
    intro r r' hr hr' hlt
    show List.Disjoint (do_ls_row count rows cols r) (do_ls_row count rows cols r')
    intro i hi hi'
    obtain ⟨c, _, hc, _⟩ := (mem_do_ls_row _ _ _ _ _).mp hi
    obtain ⟨c', _, hc', _⟩ := (mem_do_ls_row _ _ _ _ _).mp hi'
    have hr1 : r < rows := List.mem_range.mp hr
    have hr2 : r' < rows := List.mem_range.mp hr'
    have e1 : i % rows = r := by
      rw [← hc, Nat.add_comm, Nat.add_mul_mod_self_right, Nat.mod_eq_of_lt hr1]
    have e2 : i % rows = r' := by
      rw [← hc', Nat.add_comm, Nat.add_mul_mod_self_right, Nat.mod_eq_of_lt hr2]
    omega

theorem mem_do_ls_grid_flatten (count rows cols i : Nat) (h : count ≤ cols * rows) :
    i ∈ (do_ls_grid count rows cols).flatten ↔ i < count := by
  unfold do_ls_grid
  rw [← List.flatMap_def, List.mem_flatMap]
  constructor
  · rintro ⟨r, _, hi⟩
    obtain ⟨c, _, _, hlt⟩ := (mem_do_ls_row _ _ _ _ _).mp hi
    exact hlt
  · intro hi
    have hrows : 0 < rows := by
      rcases Nat.eq_zero_or_pos rows with h0 | h0
      · rw [h0, Nat.mul_zero] at h; omega
      · exact h0
    refine ⟨i % rows, List.mem_range.mpr (Nat.mod_lt _ hrows), ?_⟩
    rw [mem_do_ls_row]
    refine ⟨i / rows, ?_, Nat.div_add_mod' i rows, hi⟩
    exact (Nat.div_lt_iff_lt_mul hrows).mpr (Nat.lt_of_lt_of_le hi h)

/-- Every index below `count` is printed exactly once by the grid loop. -/
theorem do_ls_grid_flatten_perm (count rows cols : Nat) (h : count ≤ cols * rows) :
    (do_ls_grid count rows cols).flatten.Perm (List.range count) := by
  rw [List.perm_ext_iff_of_nodup (do_ls_grid_flatten_nodup count rows cols) (List.nodup_range count)]
  intro i
  rw [mem_do_ls_grid_flatten count rows cols i h, List.mem_range]

theorem col_width_of_eq (max_len : Nat) : col_width_of max_len = max_len + 2 := by
  simp [col_width_of]

theorem cols_of_pos (term_width col_width : Nat) : 1 ≤ cols_of term_width col_width := by
  unfold cols_of
  simp only
  split <;> omega

/-- The plan has room for every entry: `count <= cols * rows`. -/
theorem count_le_cols_mul_rows (count cols : Nat) (hcols : 1 ≤ cols) :
    count ≤ cols * rows_of count cols := by
  unfold rows_of
  have h1 := Nat.div_add_mod (count + cols - 1) cols
  have h2 := Nat.mod_lt (count + cols - 1) hcols
  omega

theorem map_getD_range (files : List Name) :
    (List.range files.length).map (fun idx => files.getD idx []) = files := by
  apply List.ext_getElem?
  intro n
  rw [List.getElem?_map]
  by_cases hn : n < files.length
  · rw [List.getElem?_range hn, List.getElem?_eq_getElem hn]
    simp [List.getD_eq_getElem?_getD, List.getElem?_eq_getElem hn]
  · rw [List.getElem?_eq_none (by simpa using hn), List.getElem?_eq_none (Nat.not_lt.mp hn)]; rfl

/-- Claim C1. Vertical layout round trip of `do_ls`: with `col_width`, `cols` and `rows`
computed as in `do_ls` (for any longest length `max_len` and any terminal width), the
indices printed by the grid loop are a rearrangement of `0 .. count-1` (each index exactly
once), the printed names are a rearrangement of `files`, and reading the printed grid
column-major gives the indices `0, 1, .., count-1`, that is the names of `files` in their
sorted order. -/
theorem do_ls_vertical_round_trip (files : List Name) (max_len term_width : Nat) :
    (do_ls_grid files.length
        (rows_of files.length (cols_of term_width (col_width_of max_len)))
        (cols_of term_width (col_width_of max_len))).flatten.Perm (List.range files.length) ∧
    columnMajor (do_ls_grid files.length
        (rows_of files.length (cols_of term_width (col_width_of max_len)))
        (cols_of term_width (col_width_of max_len))) = List.range files.length ∧
    (do_ls_cells files max_len term_width).flatten.Perm files ∧
    columnMajor (do_ls_cells files max_len term_width) = files := by
  have hroom := count_le_cols_mul_rows files.length (cols_of term_width (col_width_of max_len))
    (cols_of_pos _ _)
  have hperm := do_ls_grid_flatten_perm files.length _ _ hroom
  have hcm := columnMajor_do_ls_grid files.length _ _ hroom
  refine ⟨hperm, hcm, ?_, ?_⟩
  · unfold do_ls_cells
    simp only
    rw [← List.map_flatten]
    have := hperm.map (fun idx => files.getD idx [])
    rwa [map_getD_range] at this
  · unfold do_ls_cells
    simp only
    rw [columnMajor_map, hcm, map_getD_range]

/-- Every index the grid loop computes stays below `count + cols`, so that with an entry
count below `2^31 - 2^16` and a terminal width below `2^16` no `int` of the loop wraps. -/
theorem do_ls_idx_bound (count cols r c : Nat)
    (hr : r < rows_of count cols) (hc : c < cols) :
    c * rows_of count cols + r < count + cols := by
  have h1 : rows_of count cols * cols ≤ count + cols - 1 := Nat.div_mul_le_self _ _
  have h2 : (c + 1) * rows_of count cols ≤ cols * rows_of count cols :=
    Nat.mul_le_mul_right _ hc
  have h3 : (c + 1) * rows_of count cols = c * rows_of count cols + rows_of count cols :=
    Nat.succ_mul _ _
  have h4 : cols * rows_of count cols = rows_of count cols * cols := Nat.mul_comm _ _
  omega


/-! ## The read loop and the layout plan -/

/-- The test of the read loop, as a filter: the entry is kept. -/
theorem read_loop_fold (children : List Name) (state : List Name × Nat) :
    children.foldl read_step state
      = (state.1 ++ children.filter (fun d => !decide (d.head? = some '.')),
         (children.filter (fun d => !decide (d.head? = some '.'))).foldl max_len_step state.2) := by
  induction children generalizing state with
  | nil => simp
  | cons d ds ih =>
    rw [List.foldl_cons, ih]
    by_cases hd : d.head? = some '.'
    · simp [read_step, hd, List.filter_cons]
    · simp [read_step, hd, List.filter_cons, List.append_assoc]

theorem read_loop_files (children : List Name) :
    (read_loop children).1 = children.filter (fun d => !decide (d.head? = some '.')) := by
  unfold read_loop; rw [read_loop_fold]; rfl

theorem read_loop_max_len (children : List Name) :
    (read_loop children).2 = max_len_of (read_loop children).1 := by
  rw [read_loop_files]; unfold read_loop max_len_of; rw [read_loop_fold]

theorem max_len_fold_ge (files : List Name) (m : Nat) :
    m ≤ files.foldl max_len_step m ∧ ∀ f ∈ files, f.length ≤ files.foldl max_len_step m := by
  induction files generalizing m with
  | nil => exact ⟨Nat.le_refl _, fun f h => by cases h⟩
  | cons g gs ih =>
    rw [List.foldl_cons]
    obtain ⟨h1, h2⟩ := ih (max_len_step m g)
    have hstep : m ≤ max_len_step m g ∧ g.length ≤ max_len_step m g := by
      unfold max_len_step; split <;> omega
    refine ⟨Nat.le_trans hstep.1 h1, ?_⟩
    intro f hf
    rcases List.mem_cons.mp hf with rfl | hf
    · exact Nat.le_trans hstep.2 h1
    · exact h2 f hf

theorem max_len_fold_attained (files : List Name) (m : Nat) :
    files.foldl max_len_step m = m ∨ ∃ f ∈ files, f.length = files.foldl max_len_step m := by
  induction files generalizing m with
  | nil => exact Or.inl rfl
  | cons g gs ih =>
    rw [List.foldl_cons]
    rcases ih (max_len_step m g) with h | ⟨f, hf, hlen⟩
    · rw [h]
      unfold max_len_step
      split
      · exact Or.inr ⟨g, List.mem_cons_self _ _, rfl⟩
      · exact Or.inl rfl
    · exact Or.inr ⟨f, List.mem_cons_of_mem _ hf, hlen⟩

/-- After the read loop `max_len` is the length of a longest stored name. -/
theorem max_len_of_spec (files : List Name) (hne : files ≠ []) :
    (∀ f ∈ files, f.length ≤ max_len_of files) ∧ ∃ f ∈ files, f.length = max_len_of files := by
  refine ⟨(max_len_fold_ge files 0).2, ?_⟩
  rcases max_len_fold_attained files 0 with h | h
  · cases files with
    | nil => exact absurd rfl hne
    | cons g gs =>
      refine ⟨g, List.mem_cons_self _ _, ?_⟩
      have := (max_len_fold_ge (g :: gs) 0).2 g (List.mem_cons_self _ _)
      unfold max_len_of
      omega
  · exact h

theorem rows_of_ceil (count cols : Nat) (hcount : 0 < count) (hcols : 1 ≤ cols) :
    1 ≤ rows_of count cols ∧ count ≤ rows_of count cols * cols ∧
      (rows_of count cols - 1) * cols < count := by
  have h1 := Nat.div_add_mod (count + cols - 1) cols
  have h2 := Nat.mod_lt (count + cols - 1) hcols
  have hpos : 1 ≤ rows_of count cols := by
    unfold rows_of
    exact (Nat.one_le_div_iff hcols).mpr (by omega)
  refine ⟨hpos, ?_, ?_⟩
  · rw [Nat.mul_comm]; exact count_le_cols_mul_rows count cols hcols
  · have e : (rows_of count cols - 1) * cols = cols * rows_of count cols - cols := by
      rw [Nat.sub_mul, Nat.one_mul, Nat.mul_comm]
    rw [e]
    unfold rows_of
    have hge : cols ≤ cols * ((count + cols - 1) / cols) := by
      have := Nat.mul_le_mul_left cols hpos
      unfold rows_of at this
      simpa using this
    omega

/-- Claim C6. Layout plan arithmetic of `do_ls`: when the read loop has stored at least one
name, `max_len` is the length `L` of a longest stored name, `col_width = L + 2 >= 1`,
`cols = max 1 (term_width / col_width)` (integer division by a non-zero number),
`rows = ceil (count / cols)`, `rows * cols >= count` and `rows >= 1`, for every terminal
width. -/
theorem do_ls_layout_plan (children : List Name) (term_width : Nat)
    (hne : (read_loop children).1 ≠ []) :
    (∀ f ∈ (read_loop children).1, f.length ≤ (read_loop children).2) ∧
    (∃ f ∈ (read_loop children).1, f.length = (read_loop children).2) ∧
    col_width_of (read_loop children).2 = (read_loop children).2 + 2 ∧
    1 ≤ col_width_of (read_loop children).2 ∧
    cols_of term_width (col_width_of (read_loop children).2)
      = max 1 (term_width / col_width_of (read_loop children).2) ∧
    rows_of (read_loop children).1.length
        (cols_of term_width (col_width_of (read_loop children).2))
      = ⌈((read_loop children).1.length : ℚ)
          / (cols_of term_width (col_width_of (read_loop children).2) : ℚ)⌉₊ ∧
    (read_loop children).1.length ≤
      rows_of (read_loop children).1.length
          (cols_of term_width (col_width_of (read_loop children).2))
        * cols_of term_width (col_width_of (read_loop children).2) ∧
    1 ≤ rows_of (read_loop children).1.length
          (cols_of term_width (col_width_of (read_loop children).2)) := by
  have hL := max_len_of_spec (read_loop children).1 hne
  rw [← read_loop_max_len] at hL
  have hcount : 0 < (read_loop children).1.length := List.length_pos.mpr hne
  have hcols := cols_of_pos term_width (col_width_of (read_loop children).2)
  obtain ⟨hr1, hr2, hr3⟩ := rows_of_ceil (read_loop children).1.length _ hcount hcols
  refine ⟨hL.1, hL.2, col_width_of_eq _, ?_, ?_, ?_, hr2, hr1⟩
  · rw [col_width_of_eq]; omega
  · unfold cols_of
    simp only
    split
    · rw [Nat.max_eq_left]; omega
    · rw [Nat.max_eq_right]; omega
  · symm
    rw [Nat.ceil_eq_iff (by omega)]
    have hcq : (0 : ℚ) < (cols_of term_width (col_width_of (read_loop children).2) : ℚ) := by
      exact_mod_cast hcols
    constructor
    · rw [lt_div_iff₀ hcq]
      exact_mod_cast hr3
    · rw [div_le_iff₀ hcq]
      exact_mod_cast hr2

/-- The layout plan on three names of lengths 1, 2, 3 (and a hidden one) at width 20. -/
theorem do_ls_layout_plan_witness :
    (read_loop ["a".toList, ".h".toList, "bb".toList, "ccc".toList]).1 ≠ [] ∧
    col_width_of (read_loop ["a".toList, ".h".toList, "bb".toList, "ccc".toList]).2 = 5 ∧
    cols_of 20 5 = 4 ∧ rows_of 3 4 = 1 ∧
    1 ≤ rows_of (read_loop ["a".toList, ".h".toList, "bb".toList, "ccc".toList]).1.length
          (cols_of 20 (col_width_of
            (read_loop ["a".toList, ".h".toList, "bb".toList, "ccc".toList]).2)) :=
  ⟨by decide, by decide, by decide, by decide,
    (do_ls_layout_plan ["a".toList, ".h".toList, "bb".toList, "ccc".toList] 20
      (by decide)).2.2.2.2.2.2.2⟩

/-! ## Archive names, colours and permission strings -/

/-- A found occurrence really is one: `needle` sits at offset `pos` of `hay`. -/
theorem strstr_some (hay needle : Name) (pos : Nat) (h : strstr hay needle = some pos) :
    ∃ pre post, hay = pre ++ needle ++ post ∧ pre.length = pos := by
  induction hay generalizing pos with
  | nil =>
    unfold strstr at h
    split at h
    · rename_i hemp
      cases h
      exact ⟨[], [], by simp [List.isEmpty_iff.mp hemp], rfl⟩
    · cases h
  | cons c t ih =>
    unfold strstr at h
    split at h
    · rename_i hpre
      cases h
      obtain ⟨post, hpost⟩ := List.isPrefixOf_iff_prefix.mp hpre
      exact ⟨[], post, by simp [hpost], rfl⟩
    · cases hrec : strstr t needle with
      | none => rw [hrec] at h; cases h
      | some q =>
        rw [hrec] at h
        cases h
        obtain ⟨pre, post, hcat, hlen⟩ := ih q hrec
        exact ⟨c :: pre, post, by simp [hcat], by simp [hlen]⟩

/-- The sound half of the archive test: a name accepted by `is_archive_name` ends with
one of the six extensions. -/
theorem is_archive_name_sound (name : Name) (h : is_archive_name name = true) :
    ∃ ext ∈ exts, ext <:+ name := by
  unfold is_archive_name at h
  obtain ⟨ext, hext, hm⟩ := List.any_eq_true.mp h
  refine ⟨ext, hext, ?_⟩
  unfold archive_ext_matches at hm
  cases hs : strstr name ext with
  | none => rw [hs] at hm; cases hm
  | some pos =>
    rw [hs] at hm
    obtain ⟨pre, post, hcat, hlen⟩ := strstr_some name ext pos hs
    have hl : pos + ext.length = name.length := by simpa using hm
    have hpost : post = [] := by
      have := congrArg List.length hcat
      simp only [List.length_append] at this
      exact List.length_eq_zero.mp (by omega)
    subst hpost
    exact ⟨pre, by simp [hcat]⟩

/-- Claim C2. The archive test is not the exact trailing-suffix test: `a.gz.gz` ends with
the listed extension `.gz`, and `is_archive_name` returns false for it, because `strstr`
stops at the first `.gz` (offset 1), which is not at the end. -/
theorem is_archive_name_repeated_suffix :
    ".gz".toList ∈ exts ∧ ".gz".toList <:+ "a.gz.gz".toList ∧
    strstr "a.gz.gz".toList ".gz".toList = some 1 ∧
    is_archive_name "a.gz.gz".toList = false := by
  decide

theorem and_bit_ne_zero (mode i : Nat) : (mode &&& 2 ^ i) ≠ 0 ↔ mode.testBit i = true := by
  rw [Nat.and_two_pow]
  cases mode.testBit i with
  | false => simp
  | true => simp

theorem perm_char_eq (mode i : Nat) (letter : Char) :
    perm_char mode (2 ^ i) letter = if mode.testBit i then letter else '-' := by
  unfold perm_char
  by_cases h : mode.testBit i = true
  · rw [if_pos ((and_bit_ne_zero mode i).mpr h), if_pos h]
  · rw [if_neg (fun hh => h ((and_bit_ne_zero mode i).mp hh)), if_neg h]

theorem exec_bits_ne_zero (mode : Nat) :
    (mode &&& (S_IXUSR ||| S_IXGRP ||| S_IXOTH)) ≠ 0 ↔ any_exec_bit mode = true := by
  have e : (S_IXUSR ||| S_IXGRP ||| S_IXOTH) = 2 ^ 6 ||| 2 ^ 3 ||| 2 ^ 0 := by decide
  rw [e, Nat.and_or_distrib_left, Nat.and_or_distrib_left, Nat.and_two_pow, Nat.and_two_pow,
    Nat.and_two_pow]
  unfold any_exec_bit
  cases mode.testBit 6 <;> cases mode.testBit 3 <;> cases mode.testBit 0 <;> decide

/-- The colour block of the program computes the markup of the specification's category. -/
theorem choose_color_eq (mode : Nat) (name : Name) :
    choose_color mode name
      = category_markup
          (classify_spec (entry_type mode) (any_exec_bit mode) (is_archive_name name)) := by
  have hx := exec_bits_ne_zero mode
  unfold choose_color entry_type S_ISLNK S_ISDIR S_ISCHR S_ISBLK S_ISSOCK S_ISFIFO
  generalize (mode &&& S_IFMT) = t at *
  generalize (mode &&& (S_IXUSR ||| S_IXGRP ||| S_IXOTH)) = x at *
  simp only [S_IFREG, S_IFDIR, S_IFLNK, S_IFCHR, S_IFBLK, S_IFSOCK, S_IFIFO, beq_iff_eq,
    Bool.or_eq_true]
  have key : ∀ (b : Bool), (x ≠ 0 ↔ b = true) →
      (if t = 40960 then (ANSI_MAGENTA, ANSI_RESET)
        else if t = 16384 then (ANSI_BLUE, ANSI_RESET)
        else if ((t = 8192 ∨ t = 24576) ∨ t = 49152) ∨ t = 4096 then (ANSI_REVERSE, ANSI_RESET)
        else if x ≠ 0 then (ANSI_GREEN, ANSI_RESET)
        else if is_archive_name name = true then (ANSI_RED, ANSI_RESET) else ([], []))
      = category_markup
          (classify_spec
            (if t = 32768 then EntryType.regular
              else if t = 16384 then EntryType.directory
              else if t = 40960 then EntryType.symlink
              else if t = 8192 then EntryType.char_device
              else if t = 24576 then EntryType.block_device
              else if t = 49152 then EntryType.socket
              else if t = 4096 then EntryType.fifo else EntryType.unknown)
            b (is_archive_name name)) := by
    intro b hb
    by_cases h1 : t = 40960
    · subst h1; simp [category_markup, classify_spec]
    by_cases h2 : t = 16384
    · subst h2; simp [category_markup, classify_spec]
    by_cases h3 : t = 8192
    · subst h3; simp [category_markup, classify_spec]
    by_cases h4 : t = 24576
    · subst h4; simp [category_markup, classify_spec]
    by_cases h5 : t = 49152
    · subst h5; simp [category_markup, classify_spec]
    by_cases h6 : t = 4096
    · subst h6; simp [category_markup, classify_spec]
    have hsp : ¬ (((t = 8192 ∨ t = 24576) ∨ t = 49152) ∨ t = 4096) := by
      rintro (((h | h) | h) | h) <;> contradiction
    rw [if_neg h1, if_neg h2, if_neg hsp]
    have hty : (if t = 32768 then EntryType.regular
              else if t = 16384 then EntryType.directory
              else if t = 40960 then EntryType.symlink
              else if t = 8192 then EntryType.char_device
              else if t = 24576 then EntryType.block_device
              else if t = 49152 then EntryType.socket
              else if t = 4096 then EntryType.fifo else EntryType.unknown) = EntryType.regular ∨
            (if t = 32768 then EntryType.regular
              else if t = 16384 then EntryType.directory
              else if t = 40960 then EntryType.symlink
              else if t = 8192 then EntryType.char_device
              else if t = 24576 then EntryType.block_device
              else if t = 49152 then EntryType.socket
              else if t = 4096 then EntryType.fifo else EntryType.unknown) = EntryType.unknown := by
      by_cases h7 : t = 32768
      · left; rw [if_pos h7]
      · right; rw [if_neg h7, if_neg h2, if_neg h1, if_neg h3, if_neg h4, if_neg h5, if_neg h6]
    cases b with
    | false =>
      have hx0 : ¬ x ≠ 0 := fun h => by have := hb.mp h; cases this
      rw [if_neg hx0]
      rcases hty with hty | hty <;> rw [hty] <;>
        cases is_archive_name name <;> simp [category_markup, classify_spec]
    | true =>
      rw [if_pos (hb.mpr rfl)]
      rcases hty with hty | hty <;> rw [hty] <;> simp [category_markup, classify_spec]
  exact key (any_exec_bit mode) hx

theorem category_markup_nil (cat : DisplayCategory) (h : (category_markup cat).1 = []) :
    (category_markup cat).2 = [] := by
  cases cat <;> first | rfl | (exfalso; revert h; decide)

/-- Classifier precedence in `print_colored_name_no_pad`, with the archive test the
program makes: when the path fits and `lstat` succeeds, the colour pair chosen is the
markup of the category that the specification's classifier gives (symlink, else
directory, else special, else executable when an execute bit is set, else archive when
`is_archive_name` holds for the name, else plain), and the bytes written are start, name,
end.  In particular a symlink is written in magenta whatever its permission bits, and a
regular file with an execute bit is written in green whatever its name. -/
theorem classifier_precedence (env : Env) (dir name : Name) (st : Stat)
    (hpath : (dir ++ '/' :: name).length < PATH_MAX)
    (hst : env.lstat (dir ++ '/' :: name) = some st) :
    choose_color st.st_mode name
      = category_markup (classify_spec (entry_type st.st_mode) (any_exec_bit st.st_mode)
          (is_archive_name name)) ∧
    print_colored_name_no_pad env dir name
      = (category_markup (classify_spec (entry_type st.st_mode) (any_exec_bit st.st_mode)
            (is_archive_name name))).1 ++ name
          ++ (category_markup (classify_spec (entry_type st.st_mode)
            (any_exec_bit st.st_mode) (is_archive_name name))).2 ∧
    (entry_type st.st_mode = EntryType.symlink →
      print_colored_name_no_pad env dir name = ANSI_MAGENTA ++ name ++ ANSI_RESET) ∧
    (entry_type st.st_mode = EntryType.regular → any_exec_bit st.st_mode = true →
      print_colored_name_no_pad env dir name = ANSI_GREEN ++ name ++ ANSI_RESET) := by
  have hc := choose_color_eq st.st_mode name
  have hp : print_colored_name_no_pad env dir name
      = (category_markup (classify_spec (entry_type st.st_mode) (any_exec_bit st.st_mode)
            (is_archive_name name))).1 ++ name
          ++ (category_markup (classify_spec (entry_type st.st_mode)
            (any_exec_bit st.st_mode) (is_archive_name name))).2 := by
    unfold print_colored_name_no_pad
    simp only [ge_iff_le, Nat.not_le.mpr hpath, if_false, hst, hc]
    split
    · rfl
    · rename_i hnil
      have h1 := not_not.mp hnil
      rw [h1, category_markup_nil _ h1]; simp
  refine ⟨hc, hp, ?_, ?_⟩
  · intro hty
    rw [hp, hty]; rfl
  · intro hty hex
    rw [hp, hty, hex]; rfl

/-- The symlink `./lnk` of the sample system has every execute bit set and is written in
magenta. -/
theorem classifier_precedence_witness :
    any_exec_bit (sample_stat 0o120777).st_mode = true ∧
    print_colored_name_no_pad sample_env ".".toList "lnk".toList
      = ANSI_MAGENTA ++ "lnk".toList ++ ANSI_RESET :=
  ⟨by decide,
    (classifier_precedence sample_env ".".toList "lnk".toList (sample_stat 0o120777)
      (by decide) (by decide)).2.2.1 (by decide)⟩

/-- Claim C3. The classifier does not colour every name with an archive suffix as an
archive: `a.gz.gz`, a regular file of mode 0644 (no execute bit), ends with the listed
extension `.gz`, so that the classifier of the specification gives Archive (red); the
program chooses no markup and writes the plain name, because `is_archive_name` misses the
repeated suffix.  The name `a.tar.gz` of the same mode is written in red. -/
theorem classifier_archive_repeated_suffix :
    scenario_env.lstat "./a.gz.gz".toList = some (sample_stat 0o100644) ∧
    entry_type (sample_stat 0o100644).st_mode = EntryType.regular ∧
    any_exec_bit (sample_stat 0o100644).st_mode = false ∧
    has_archive_suffix "a.gz.gz".toList = true ∧
    category_markup (classify_spec (entry_type (sample_stat 0o100644).st_mode)
        (any_exec_bit (sample_stat 0o100644).st_mode) (has_archive_suffix "a.gz.gz".toList))
      = (ANSI_RED, ANSI_RESET) ∧
    choose_color (sample_stat 0o100644).st_mode "a.gz.gz".toList = ([], []) ∧
    print_colored_name_no_pad scenario_env ".".toList "a.gz.gz".toList = "a.gz.gz".toList ∧
    print_colored_name_no_pad scenario_env ".".toList "a.tar.gz".toList
      = ANSI_RED ++ "a.tar.gz".toList ++ ANSI_RESET := by
  refine ⟨?_, ?_, ?_, ?_, ?_, ?_, ?_, ?_⟩ <;> decide

theorem type_glyph_eq (mode : Nat) :
    (if S_ISDIR mode then 'd'
     else if S_ISLNK mode then 'l'
     else if S_ISCHR mode then 'c'
     else if S_ISBLK mode then 'b'
     else if S_ISSOCK mode then 's'
     else if S_ISFIFO mode then 'p' else '-') = type_glyph (entry_type mode) := by
  unfold entry_type S_ISLNK S_ISDIR S_ISCHR S_ISBLK S_ISSOCK S_ISFIFO
  generalize (mode &&& S_IFMT) = t
  simp only [S_IFREG, S_IFDIR, S_IFLNK, S_IFCHR, S_IFBLK, S_IFSOCK, S_IFIFO, beq_iff_eq]
  by_cases h1 : t = 40960
  · subst h1; simp [type_glyph]
  by_cases h2 : t = 16384
  · subst h2; simp [type_glyph]
  by_cases h3 : t = 8192
  · subst h3; simp [type_glyph]
  by_cases h4 : t = 24576
  · subst h4; simp [type_glyph]
  by_cases h5 : t = 49152
  · subst h5; simp [type_glyph]
  by_cases h6 : t = 4096
  · subst h6; simp [type_glyph]
  by_cases h7 : t = 32768
  · subst h7; simp [type_glyph]
  · simp [h1, h2, h3, h4, h5, h6, h7, type_glyph]

/-- Claim C7. Permission string of `print_permissions`: for every mode the string has
exactly 10 characters; character 0 is the type glyph of the entry type (`d` directory,
`l` symlink, `c` char device, `b` block device, `s` socket, `p` fifo, `-` otherwise);
character `i + 1`, for `i = 0 .. 8`, is the `i`-th letter of `rwxrwxrwx` when permission
bit `8 - i` of the mode is set and `-` when it is not; a regular file of mode 0644 gives
`-rw-r--r--`. -/
theorem print_permissions_encoding (mode : Nat) :
    (print_permissions mode).length = 10 ∧
    (print_permissions mode)[0]? = some (type_glyph (entry_type mode)) ∧
    (∀ i : Fin 9, (print_permissions mode)[i.val + 1]?
        = some (if mode.testBit (8 - i.val) then perm_letters.getD i.val '-' else '-')) ∧
    print_permissions (S_IFREG ||| 0o644) = "-rw-r--r--".toList := by
  refine ⟨rfl, ?_, ?_, by decide⟩
  · unfold print_permissions
    rw [type_glyph_eq]; rfl
  · intro i
    obtain ⟨i, hi⟩ := i
    have e8 := perm_char_eq mode 8 'r'
    have e7 := perm_char_eq mode 7 'w'
    have e6 := perm_char_eq mode 6 'x'
    have e5 := perm_char_eq mode 5 'r'
    have e4 := perm_char_eq mode 4 'w'
    have e3 := perm_char_eq mode 3 'x'
    have e2 := perm_char_eq mode 2 'r'
    have e1 := perm_char_eq mode 1 'w'
    have e0 := perm_char_eq mode 0 'x'
    unfold print_permissions
    interval_cases i
    · exact congrArg some e8
    · exact congrArg some e7
    · exact congrArg some e6
    · exact congrArg some e5
    · exact congrArg some e4
    · exact congrArg some e3
    · exact congrArg some e2
    · exact congrArg some e1
    · exact congrArg some e0


/-! ## Sorting by `compare_names` -/

theorem char_toNat_ne (x y : Char) (h : x ≠ y) : x.toNat ≠ y.toNat := by
  intro he
  apply h
  rw [← Char.ofNat_toNat x, ← Char.ofNat_toNat y, he]

theorem strcmp_swap (a b : Name) : strcmp b a = - strcmp a b := by
  induction a generalizing b with
  | nil =>
    cases b with
    | nil => simp [strcmp]
    | cons y bs => simp [strcmp]
  | cons x as ih =>
    cases b with
    | nil => simp [strcmp]
    | cons y bs =>
      by_cases hxy : x = y
      · subst hxy
        by_cases h0 : x.toNat = 0
        · simp [strcmp, h0]
        · simp [strcmp, h0, ih bs]
      · have hyx : ¬ y = x := fun h => hxy h.symm
        simp [strcmp, hxy, hyx]

theorem strcmp_total (a b : Name) : strcmp a b ≤ 0 ∨ strcmp b a ≤ 0 := by
  rw [strcmp_swap a b]; omega

theorem strcmp_trans (a b c : Name) (h1 : strcmp a b ≤ 0) (h2 : strcmp b c ≤ 0) :
    strcmp a c ≤ 0 := by
  induction a generalizing b c with
  | nil => cases c <;> simp [strcmp]
  | cons x as ih =>
    cases b with
    | nil =>
      cases c with
      | nil => simpa [strcmp] using h1
      | cons z cs =>
        simp only [strcmp] at h1 ⊢
        split_ifs <;> omega
    | cons y bs =>
      cases c with
      | nil =>
        simp only [strcmp] at h1 h2 ⊢
        by_cases hxy : x = y
        · subst hxy; omega
        · rw [if_neg hxy] at h1; omega
      | cons z cs =>
        simp only [strcmp] at h1 h2 ⊢
        by_cases hxy : x = y
        · subst hxy
          by_cases hxz : x = z
          · subst hxz
            by_cases h0 : x.toNat = 0
            · simp [h0]
            · simp only [if_true, h0, if_false] at h1 h2 ⊢
              exact ih bs cs h1 h2
          · rw [if_neg hxz] at h2 ⊢; exact h2
        · rw [if_neg hxy] at h1
          have nxy := char_toNat_ne x y hxy
          by_cases hyz : y = z
          · subst hyz
            rw [if_neg hxy]; exact h1
          · rw [if_neg hyz] at h2
            have nyz := char_toNat_ne y z hyz
            by_cases hxz : x = z
            · subst hxz; omega
            · rw [if_neg hxz]; omega

theorem qsort_insert_perm (compar : Name → Name → Int) (x : Name) (l : List Name) :
    (qsort_insert compar x l).Perm (x :: l) := by
  induction l with
  | nil => exact List.Perm.refl _
  | cons y ys ih =>
    unfold qsort_insert
    split
    · exact List.Perm.refl _
    · exact (List.Perm.cons y ih).trans (List.Perm.swap x y ys)

theorem qsort_perm (compar : Name → Name → Int) (l : List Name) :
    (qsort compar l).Perm l := by
  induction l with
  | nil => exact List.Perm.refl _
  | cons x xs ih =>
    unfold qsort
    exact (qsort_insert_perm compar x _).trans (List.Perm.cons x ih)

theorem qsort_insert_sorted (x : Name) (l : List Name)
    (h : l.Pairwise (fun a b => compare_names a b ≤ 0)) :
    (qsort_insert compare_names x l).Pairwise (fun a b => compare_names a b ≤ 0) := by
  induction l with
  | nil => simp [qsort_insert]
  | cons y ys ih =>
    obtain ⟨hy, hys⟩ := List.pairwise_cons.mp h
    unfold qsort_insert
    split
    · rename_i hxy
      refine List.pairwise_cons.mpr ⟨?_, h⟩
      intro b hb
      rcases List.mem_cons.mp hb with rfl | hb
      · exact hxy
      · exact strcmp_trans x y b hxy (hy b hb)
    · rename_i hxy
      have hyx : compare_names y x ≤ 0 := by
        rcases strcmp_total x y with h' | h'
        · exact absurd h' hxy
        · exact h'
      refine List.pairwise_cons.mpr ⟨?_, ih hys⟩
      intro b hb
      have hb' := (qsort_insert_perm compare_names x ys).subset hb
      rcases List.mem_cons.mp hb' with rfl | hb'
      · exact hyx
      · exact hy b hb'

theorem qsort_sorted (l : List Name) :
    (qsort compare_names l).Pairwise (fun a b => compare_names a b ≤ 0) := by
  induction l with
  | nil => exact List.Pairwise.nil
  | cons x xs ih => exact qsort_insert_sorted x _ ih


/-! ## The horizontal loop -/

theorem horizontal_loop_rule (col_width term_width : Nat) (files : List Name)
    (current placed : Nat) :
    ∀ s ∈ horizontal_loop col_width term_width current placed files,
      (s.brk = true ↔ s.current + col_width > term_width) := by
  induction files generalizing current placed with
  | nil => intro s hs; cases hs
  | cons name rest ih =>
    intro s hs
    unfold horizontal_loop at hs
    split at hs
    · rename_i hgt
      rcases List.mem_cons.mp hs with rfl | hs
      · simpa using hgt
      · exact ih _ _ s hs
    · rename_i hle
      rcases List.mem_cons.mp hs with rfl | hs
      · simpa using hle
      · exact ih _ _ s hs

theorem horizontal_loop_placed (col_width term_width : Nat) (files : List Name)
    (current placed : Nat) (h : current = placed * col_width) :
    ∀ s ∈ horizontal_loop col_width term_width current placed files,
      s.current = s.placed * col_width := by
  induction files generalizing current placed with
  | nil => intro s hs; cases hs
  | cons name rest ih =>
    intro s hs
    unfold horizontal_loop at hs
    split at hs
    · rcases List.mem_cons.mp hs with rfl | hs
      · exact h
      · exact ih _ _ (by simp) s hs
    · rcases List.mem_cons.mp hs with rfl | hs
      · exact h
      · exact ih _ _ (by rw [h, Nat.succ_mul]) s hs

theorem horizontal_loop_names (col_width term_width : Nat) (files : List Name)
    (current placed : Nat) :
    (horizontal_loop col_width term_width current placed files).map HStep.name = files := by
  induction files generalizing current placed with
  | nil => rfl
  | cons name rest ih =>
    unfold horizontal_loop
    split <;> simp [ih]

theorem horizontal_loop_head (col_width term_width : Nat) (files : List Name)
    (current placed : Nat) (s : HStep)
    (h : (horizontal_loop col_width term_width current placed files).head? = some s) :
    s.current = current ∧ s.placed = placed := by
  cases files with
  | nil => cases h
  | cons name rest =>
    unfold horizontal_loop at h
    split at h <;> (simp at h; subst h; exact ⟨rfl, rfl⟩)

/-- Claim C4, as the program has it. Line-break rule of `do_ls_horizontal`, for every list
of names, every `max_len` and every terminal width: a line break is written before an
entry exactly when `current + col_width > term_width`, where `current` is `col_width`
times the number of entries already placed on the line; every entry is written, in
order.  When `col_width <= term_width` the break is written exactly when moreover an
entry has been placed on the line, and none is written before the first entry.  When
`col_width > term_width` a break is written before every entry, the first included. -/
theorem do_ls_horizontal_break_rule (files : List Name) (max_len term_width : Nat) :
    (∀ s ∈ horizontal_loop (col_width_of max_len) term_width 0 0 files,
      (s.brk = true ↔ s.current + col_width_of max_len > term_width) ∧
      s.current = s.placed * col_width_of max_len) ∧
    (horizontal_loop (col_width_of max_len) term_width 0 0 files).map HStep.name = files ∧
    (∀ s, (horizontal_loop (col_width_of max_len) term_width 0 0 files).head? = some s →
      s.placed = 0) ∧
    (col_width_of max_len ≤ term_width →
      (∀ s ∈ horizontal_loop (col_width_of max_len) term_width 0 0 files,
        (s.brk = true ↔ s.current + col_width_of max_len > term_width ∧ 0 < s.placed)) ∧
      ∀ s, (horizontal_loop (col_width_of max_len) term_width 0 0 files).head? = some s →
        s.brk = false) ∧
    (term_width < col_width_of max_len →
      ∀ s ∈ horizontal_loop (col_width_of max_len) term_width 0 0 files, s.brk = true) := by
  have hrule := horizontal_loop_rule (col_width_of max_len) term_width files 0 0
  have hpl := horizontal_loop_placed (col_width_of max_len) term_width files 0 0 (by simp)
  have hhead := horizontal_loop_head (col_width_of max_len) term_width files 0 0
  refine ⟨fun s hs => ⟨hrule s hs, hpl s hs⟩, horizontal_loop_names _ _ _ _ _,
    fun s hs => (hhead s hs).2, ?_, ?_⟩
  · intro hfit
    have hiff : ∀ s ∈ horizontal_loop (col_width_of max_len) term_width 0 0 files,
        (s.brk = true ↔ s.current + col_width_of max_len > term_width ∧ 0 < s.placed) := by
      intro s hs
      rw [hrule s hs]
      constructor
      · intro hgt
        refine ⟨hgt, ?_⟩
        rcases Nat.eq_zero_or_pos s.placed with h0 | h0
        · have := hpl s hs
          rw [h0, Nat.zero_mul] at this
          omega
        · exact h0
      · exact fun h => h.1
    refine ⟨hiff, ?_⟩
    intro s hs
    have hmem : s ∈ horizontal_loop (col_width_of max_len) term_width 0 0 files :=
      List.mem_of_mem_head? hs
    have h0 := (hhead s hs).2
    cases hb : s.brk with
    | false => rfl
    | true =>
      have := ((hiff s hmem).mp hb).2
      omega
  · intro hwide s hs
    rw [hrule s hs]
    omega

/-- Claim C4, as stated, fails. On a terminal of 5 columns the single name `abcdefgh`
(`col_width` 10) is preceded by a line break although no entry has been placed on the
line, and the output of `do_ls_horizontal` starts with that line break. -/
theorem do_ls_horizontal_leading_break :
    horizontal_loop (col_width_of 8) 5 0 0 ["abcdefgh".toList]
      = [⟨0, 0, true, "abcdefgh".toList⟩] ∧
    (do_ls_horizontal narrow_env ".".toList).out = "\nabcdefgh  \n".toList := by
  decide

/-- On a terminal of 20 columns the names `a`, `bb`, `ccc` (`col_width` 5) fit, and no
line break is written before the first of them. -/
theorem do_ls_horizontal_break_rule_witness :
    col_width_of 3 ≤ 20 ∧
    ∀ s, (horizontal_loop (col_width_of 3) 20 0 0
        ["a".toList, "bb".toList, "ccc".toList]).head? = some s → s.brk = false :=
  ⟨by decide,
    ((do_ls_horizontal_break_rule ["a".toList, "bb".toList, "ccc".toList] 3 20).2.2.2.1
      (by decide)).2⟩


/-! ## Runs that may be killed -/

theorem out_append_nil_left (o : Out) : Out.append ⟨[], []⟩ o = o := by
  cases o; rfl

theorem out_append_nil_right (o : Out) : Out.append o ⟨[], []⟩ = o := by
  cases o; simp [Out.append]

theorem out_append_assoc (a b c : Out) : (a.append b).append c = a.append (b.append c) := by
  simp [Out.append, List.append_assoc]

theorem option_map_append_nil (x : Option Out) :
    x.map (fun later => Out.append ⟨[], []⟩ later) = x := by
  cases x with
  | none => rfl
  | some o => simp [out_append_nil_left]

/-- The loop of `do_ls_long` runs `print_file_details` once for each name, in order. -/
theorem do_ls_long_loop_eq (env : Env) (dir : Name) (names : List Name) (acc : Out) :
    do_ls_long_loop env dir acc names
      = (concat_runs (names.map fun name =>
          print_file_details env (long_path dir name) name)).map
            fun later => acc.append later := by
  induction names generalizing acc with
  | nil => simp [do_ls_long_loop, concat_runs, out_append_nil_right]
  | cons name rest ih =>
    unfold do_ls_long_loop
    rw [List.map_cons]
    cases hp : print_file_details env (long_path dir name) name with
    | none => simp [concat_runs]
    | some line =>
      simp only [concat_runs]
      rw [ih]
      cases concat_runs (rest.map fun name =>
          print_file_details env (long_path dir name) name) with
      | none => rfl
      | some later => simp [out_append_assoc]

/-- The long listing of a directory is one run of `print_file_details` for each name of
the sorted array, in order. -/
theorem do_ls_long_eq (env : Env) (dir : Name) (children : List Name)
    (hr : env.readdir dir = some children) :
    do_ls_long env dir
      = concat_runs ((sorted_files children).map fun name =>
          print_file_details env (long_path dir name) name) := by
  unfold do_ls_long
  rw [hr]
  simp only
  split
  · rename_i h0
    have hnil : sorted_files children = [] := by
      have hp : (sorted_files children).Perm (read_loop children).1 := qsort_perm _ _
      rw [List.length_eq_zero.mp h0] at hp
      exact hp.eq_nil
    rw [hnil]; rfl
  · rw [do_ls_long_loop_eq, option_map_append_nil]

/-- The line of `print_file_details` for an entry whose metadata resolves and whose
modification time converts. -/
theorem print_file_details_some (env : Env) (path filename : Name) (st : Stat)
    (timebuf : Name) (hst : env.lstat path = some st)
    (htime : env.strftime st.st_mtime = some timebuf) :
    print_file_details env path filename
      = some ⟨print_permissions st.st_mode ++ [' '] ++ pad_left 2 (decimal st.st_nlink)
          ++ [' '] ++ pad_right 8 (owner_field env st) ++ [' ']
          ++ pad_right 8 (group_field env st) ++ [' '] ++ pad_left 8 (decimal st.st_size)
          ++ [' '] ++ timebuf ++ [' ']
          ++ print_colored_name_no_pad env ".".toList filename ++ ['\n'], []⟩ := by
  unfold print_file_details
  rw [hst]
  simp only [htime]
  simp

/-- Claim C9. Long listing of the directory `sub` of the sample system: the entry `sub/x`
is a directory (its line starts with `d`), yet its name is written in green, the colour
of the executable regular file `./x`; resolved in `sub`, as the column listings do, the
name is blue. -/
theorem do_ls_long_colour_of_cwd :
    do_ls_long sample_env "sub".toList
      = some ⟨"drwxr-xr-x  1 unknown  unknown      4096 Jan 01 00:00 ".toList
          ++ ANSI_GREEN ++ "x".toList ++ ANSI_RESET ++ ['\n'], []⟩ ∧
    print_colored_name_no_pad sample_env "sub".toList "x".toList
      = ANSI_BLUE ++ "x".toList ++ ANSI_RESET ∧
    (do_ls sample_env "sub".toList).out
      = ANSI_BLUE ++ "x".toList ++ ANSI_RESET ++ "  \n".toList := by
  refine ⟨?_, ?_, ?_⟩ <;> decide

theorem pad_left_shape (w : Nat) (s : Name) :
    (pad_left w s).length = max w s.length ∧ s <:+ pad_left w s ∧
      ∀ c ∈ (pad_left w s).take ((pad_left w s).length - s.length), c = ' ' := by
  unfold pad_left
  refine ⟨?_, ⟨List.replicate (w - s.length) ' ', rfl⟩, ?_⟩
  · rw [List.length_append, List.length_replicate]; omega
  · intro c hc
    rw [List.length_append, List.length_replicate, Nat.add_sub_cancel,
      List.take_left' (List.length_replicate _ _)] at hc
    exact List.eq_of_mem_replicate hc

theorem pad_right_shape (w : Nat) (s : Name) :
    (pad_right w s).length = max w s.length ∧ s <+: pad_right w s ∧
      ∀ c ∈ (pad_right w s).drop s.length, c = ' ' := by
  unfold pad_right
  refine ⟨?_, ⟨List.replicate (w - s.length) ' ', rfl⟩, ?_⟩
  · rw [List.length_append, List.length_replicate]; omega
  · intro c hc
    rw [List.drop_left] at hc
    exact List.eq_of_mem_replicate hc

theorem digitChar_spec (k : Nat) (h : k < 10) :
    digit_value (Nat.digitChar k) = k ∧ (Nat.digitChar k).isDigit = true ∧
      (k ≠ 0 → Nat.digitChar k ≠ '0') := by
  interval_cases k <;> decide

/-- Read back, the digits written in front of `ds` continue the number `n`. -/
theorem toDigitsCore_value (fuel n : Nat) (ds : Name) (h : n < fuel) :
    (Nat.toDigitsCore 10 fuel n ds).foldl (fun acc c => 10 * acc + digit_value c) 0
      = ds.foldl (fun acc c => 10 * acc + digit_value c) n := by
  induction fuel generalizing n ds with
  | zero => omega
  | succ fuel ih =>
    have hd := (digitChar_spec (n % 10) (Nat.mod_lt _ (by decide))).1
    unfold Nat.toDigitsCore
    simp only
    split
    · rename_i h0
      have hn : n % 10 = n := by omega
      rw [List.foldl_cons, hd, hn]; simp
    · rename_i h0
      rw [ih (n / 10) _ (by omega), List.foldl_cons, hd]
      congr 1
      omega

theorem toDigitsCore_digits (fuel n : Nat) (ds : Name) :
    ∀ c ∈ Nat.toDigitsCore 10 fuel n ds, c.isDigit = true ∨ c ∈ ds := by
  induction fuel generalizing n ds with
  | zero => intro c hc; exact Or.inr (by simpa [Nat.toDigitsCore] using hc)
  | succ fuel ih =>
    have hd := (digitChar_spec (n % 10) (Nat.mod_lt _ (by decide))).2.1
    intro c hc
    unfold Nat.toDigitsCore at hc
    simp only at hc
    split at hc
    · rcases List.mem_cons.mp hc with rfl | hc
      · exact Or.inl hd
      · exact Or.inr hc
    · rcases ih _ _ c hc with h | h
      · exact Or.inl h
      · rcases List.mem_cons.mp h with rfl | h
        · exact Or.inl hd
        · exact Or.inr h

theorem toDigitsCore_head (fuel n : Nat) (ds : Name) (hn : n ≠ 0) (h : n < fuel) :
    ∃ c rest, Nat.toDigitsCore 10 fuel n ds = c :: rest ∧ c ≠ '0' := by
  induction fuel generalizing n ds with
  | zero => omega
  | succ fuel ih =>
    unfold Nat.toDigitsCore
    simp only
    split
    · rename_i h0
      have hk : n % 10 ≠ 0 := by omega
      exact ⟨_, _, rfl, (digitChar_spec (n % 10) (Nat.mod_lt _ (by decide))).2.2 hk⟩
    · rename_i h0
      exact ih (n / 10) _ h0 (by omega)

/-- The function `decimal` writes the decimal numeral of `n`: digits only, denoting `n`,
without a leading zero unless `n` is zero. -/
theorem decimal_spec (n : Nat) :
    decimal_value (decimal n) = n ∧ (∀ c ∈ decimal n, c.isDigit = true) ∧
      (n ≠ 0 → ∃ c rest, decimal n = c :: rest ∧ c ≠ '0') ∧ decimal 0 = ['0'] := by
  unfold decimal decimal_value Nat.toDigits
  refine ⟨?_, ?_, ?_, by decide⟩
  · rw [toDigitsCore_value _ _ _ (Nat.lt_succ_self n)]; rfl
  · intro c hc
    rcases toDigitsCore_digits _ _ _ c hc with h | h
    · exact h
    · cases h
  · intro hn
    exact toDigitsCore_head _ _ _ hn (Nat.lt_succ_self n)

/-- The long-format line of `print_file_details`, for every entry whose metadata resolves
and whose modification time `localtime` converts: nothing goes to the error stream and
the line is the permission string (10 characters), a space, the link count right-aligned
to width 2, a space, the owner (the name of the identity database, else `unknown`)
left-aligned to width 8, a space, the group likewise, a space, the size right-aligned to
width 8, a space, the time text, a space, the bytes written for the coloured name, and a
newline.  Numbers are written as decimal numerals; a padded field has the length of the
wider of the width and the text, holds the text in full and is filled with spaces.  For a
regular file of mode 0644 and size 4096 the line starts with `-rw-r--r--` and contains
the size field `    4096`. -/
theorem print_file_details_line_shape (env : Env) (path filename : Name) (st : Stat)
    (timebuf : Name) (hst : env.lstat path = some st)
    (htime : env.strftime st.st_mtime = some timebuf) :
    print_file_details env path filename
      = some ⟨print_permissions st.st_mode ++ [' '] ++ pad_left 2 (decimal st.st_nlink)
          ++ [' '] ++ pad_right 8 ((env.getpwuid st.st_uid).getD "unknown".toList) ++ [' ']
          ++ pad_right 8 ((env.getgrgid st.st_gid).getD "unknown".toList) ++ [' ']
          ++ pad_left 8 (decimal st.st_size) ++ [' '] ++ timebuf ++ [' ']
          ++ print_colored_name_no_pad env ".".toList filename ++ ['\n'], []⟩ ∧
    (print_permissions st.st_mode).length = 10 ∧
    (∀ n : Nat, decimal_value (decimal n) = n ∧ (∀ c ∈ decimal n, c.isDigit = true) ∧
      (n ≠ 0 → ∃ c rest, decimal n = c :: rest ∧ c ≠ '0') ∧ decimal 0 = ['0']) ∧
    (∀ (w : Nat) (s : Name), (pad_left w s).length = max w s.length ∧ s <:+ pad_left w s ∧
      ∀ c ∈ (pad_left w s).take ((pad_left w s).length - s.length), c = ' ') ∧
    (∀ (w : Nat) (s : Name), (pad_right w s).length = max w s.length ∧ s <+: pad_right w s ∧
      ∀ c ∈ (pad_right w s).drop s.length, c = ' ') ∧
    (st.st_mode = S_IFREG ||| 0o644 → st.st_size = 4096 →
      ∃ line, print_file_details env path filename = some ⟨line, []⟩ ∧
        "-rw-r--r--".toList <+: line ∧ "    4096".toList <:+: line) := by
  have hown : owner_field env st = (env.getpwuid st.st_uid).getD "unknown".toList := by
    unfold owner_field; cases env.getpwuid st.st_uid <;> rfl
  have hgrp : group_field env st = (env.getgrgid st.st_gid).getD "unknown".toList := by
    unfold group_field; cases env.getgrgid st.st_gid <;> rfl
  have hline := print_file_details_some env path filename st timebuf hst htime
  rw [hown, hgrp] at hline
  refine ⟨hline, rfl, decimal_spec, pad_left_shape, pad_right_shape, ?_⟩
  intro hmode hsize
  refine ⟨_, hline, ?_, ?_⟩
  · rw [hmode]
    have hp : print_permissions (S_IFREG ||| 0o644) = "-rw-r--r--".toList := by decide
    rw [hp]
    simp only [List.append_assoc]
    exact List.prefix_append _ _
  · rw [hsize]
    have hs : pad_left 8 (decimal 4096) = "    4096".toList := by decide
    rw [hs]
    refine ⟨print_permissions st.st_mode ++ [' '] ++ pad_left 2 (decimal st.st_nlink)
        ++ [' '] ++ pad_right 8 ((env.getpwuid st.st_uid).getD "unknown".toList) ++ [' ']
        ++ pad_right 8 ((env.getgrgid st.st_gid).getD "unknown".toList) ++ [' '],
      [' '] ++ timebuf ++ [' '] ++ print_colored_name_no_pad env ".".toList filename
        ++ ['\n'], ?_⟩
    simp only [List.append_assoc]

/-- The line of `./Apple` in the sample system, a regular file of mode 0644 and size
4096. -/
theorem print_file_details_line_shape_witness :
    sample_env.lstat "./Apple".toList = some (sample_stat 0o100644) ∧
    ∃ line, print_file_details sample_env "./Apple".toList "Apple".toList
        = some ⟨line, []⟩ ∧
      "-rw-r--r--".toList <+: line ∧ "    4096".toList <:+: line :=
  ⟨by decide,
    (print_file_details_line_shape sample_env "./Apple".toList "Apple".toList
      (sample_stat 0o100644) "Jan 01 00:00".toList (by decide) (by decide)).2.2.2.2.2
      (by decide) (by decide)⟩

/-- Claim C11. The long-format line is not written for every entry whose metadata
resolves: the entry `./late` resolves (a regular file of mode 0644), `localtime` cannot
convert its modification time `2^62`, and `print_file_details` hands the null result to
`strftime`: the process is killed, in `print_file_details` and so in `do_ls_long` and in
`main -l`.  An entry whose time converts gets its whole line: `./big` with its resolved
owner and group and its size printed in full, `./Apple` of the sample system with
`unknown` twice. -/
theorem print_file_details_killed :
    late_env.lstat "./late".toList = some ⟨0o100644, 1, 1000, 1000, 4096, 2 ^ 62⟩ ∧
    late_env.strftime (2 ^ 62) = none ∧
    print_file_details late_env "./late".toList "late".toList = none ∧
    do_ls_long late_env ".".toList = none ∧
    main late_env "ls".toList ['l'] [] = none ∧
    print_file_details late_env "./big".toList "big".toList
      = some ⟨"-rw-r--r-- 12 root     root     123456789 Jan 01 00:00 big\n".toList, []⟩ ∧
    print_file_details sample_env "./Apple".toList "Apple".toList
      = some ⟨"-rw-r--r--  1 unknown  unknown      4096 Jan 01 00:00 Apple\n".toList, []⟩ := by
  refine ⟨?_, ?_, ?_, ?_, ?_, ?_, ?_⟩ <;> decide

/-- An entry whose modification time `localtime` cannot convert kills the process,
whatever the rest of its metadata. -/
theorem print_file_details_none (env : Env) (path filename : Name) (st : Stat)
    (hst : env.lstat path = some st) (htime : env.strftime st.st_mtime = none) :
    print_file_details env path filename = none := by
  unfold print_file_details
  rw [hst]
  simp only [htime]

/-- Claim C14. Terminal width provider: `get_terminal_width` returns 80 when the query
fails and when it reports zero columns, returns the reported column count otherwise, and
its result is positive for every outcome of the query. -/
theorem get_terminal_width_fallback (env : Env) :
    (env.winsize = none → get_terminal_width env = 80) ∧
    (env.winsize = some 0 → get_terminal_width env = 80) ∧
    (∀ ws_col, ws_col ≠ 0 → env.winsize = some ws_col → get_terminal_width env = ws_col) ∧
    0 < get_terminal_width env := by
  unfold get_terminal_width
  refine ⟨?_, ?_, ?_, ?_⟩
  · intro h; rw [h]
  · intro h; rw [h]; rfl
  · intro ws_col hne h; rw [h]; simp [hne]
  · cases env.winsize with
    | none => decide
    | some ws_col =>
      simp only
      split <;> omega

/-- The sample system reports 20 columns, the narrow one 5; both widths are returned. -/
theorem get_terminal_width_fallback_witness :
    sample_env.winsize = some 20 ∧ get_terminal_width sample_env = 20 ∧
    get_terminal_width narrow_env = 5 :=
  ⟨by decide,
    (get_terminal_width_fallback sample_env).2.2.1 20 (by decide) (by decide),
    by decide⟩


/-! ## Cells: colour and padding -/

/-- The bytes written for a name are the markup of its category around the name. -/
theorem print_colored_name_no_pad_eq (env : Env) (dir name : Name) :
    print_colored_name_no_pad env dir name
      = (category_markup (category_of env dir name)).1 ++ name
          ++ (category_markup (category_of env dir name)).2 := by
  unfold print_colored_name_no_pad category_of
  simp only
  split
  · simp [category_markup]
  · cases hst : env.lstat (dir ++ '/' :: name) with
    | none => simp [category_markup]
    | some st =>
      simp only [choose_color_eq]
      split
      · rfl
      · rename_i hnil
        have h1 := not_not.mp hnil
        rw [h1, category_markup_nil _ h1]; simp

/-- The padding depends on the column width and on the length of the name only, and is
`max(1, col_width - len(name))`. -/
theorem pad_of_eq (col_width : Nat) (name : Name) :
    pad_of col_width name = max 1 (col_width - name.length) := by
  unfold pad_of
  simp only
  split <;> omega

/-- Claim C13. Colour markup never affects alignment: for every system, directory, name
and column width, the cell written by `print_colored_name_padded`, and the one written
inline by `do_ls_horizontal` after its optional line break, is the start sequence of the
name's category, the name, the end sequence, then `max(1, col_width - len(name))` spaces;
the padding is computed from the column width and the length of the name alone.  For each
of the six categories the cell is the plain cell (name, then padding) with the two
sequences of the category put around the name, and its length is the length of the two
sequences plus `max(len(name) + 1, col_width)`. -/
theorem colour_never_affects_alignment (env : Env) (dir name : Name) (col_width : Nat) :
    print_colored_name_padded env dir name col_width
      = cell_of (category_of env dir name) name col_width ∧
    (∀ (current placed : Nat) (brk : Bool),
      horizontal_bytes env dir col_width ⟨current, placed, brk, name⟩
        = (if brk then ['\n'] else []) ++ cell_of (category_of env dir name) name col_width) ∧
    pad_of col_width name = max 1 (col_width - name.length) ∧
    cell_of DisplayCategory.Plain name col_width
      = name ++ List.replicate (max 1 (col_width - name.length)) ' ' ∧
    (∀ cat : DisplayCategory,
      cell_of cat name col_width
        = (category_markup cat).1 ++ name ++ (category_markup cat).2
            ++ List.replicate (max 1 (col_width - name.length)) ' ' ∧
      (cell_of cat name col_width).length
        = (category_markup cat).1.length + (category_markup cat).2.length
            + max (name.length + 1) col_width) := by
  refine ⟨?_, ?_, pad_of_eq col_width name, ?_, ?_⟩
  · unfold print_colored_name_padded cell_of
    rw [print_colored_name_no_pad_eq, pad_of_eq]
  · intro current placed brk
    unfold horizontal_bytes cell_of
    simp only
    rw [print_colored_name_no_pad_eq, pad_of_eq]
    simp only [List.append_assoc]
  · simp [cell_of, category_markup]
  · intro cat
    refine ⟨rfl, ?_⟩
    unfold cell_of
    simp only [List.length_append, List.length_replicate]
    omega


/-! ## The worked scenario, and lines that fit the terminal -/

theorem sorted_files_perm (children : List Name) :
    (sorted_files children).Perm
      (children.filter (fun d => !decide (d.head? = some '.'))) := by
  unfold sorted_files
  rw [← read_loop_files]
  exact qsort_perm _ _

/-- Claim C12. Worked layout scenario: on a terminal of width 20, for a directory whose
visible entries are `a`, `bb`, `ccc` in some on-disk order, all written without colour,
`do_ls` computes `col_width = 5`, `cols = 4`, one row, and writes exactly the line
`a    bb   ccc  ` followed by one line break, nothing else. -/
theorem do_ls_scenario (env : Env) (dir : Name) (children : List Name)
    (hr : env.readdir dir = some children)
    (hvis : (children.filter (fun d => !decide (d.head? = some '.'))).Perm
      ["a".toList, "bb".toList, "ccc".toList])
    (hw : get_terminal_width env = 20)
    (hplain : ∀ name ∈ ["a".toList, "bb".toList, "ccc".toList],
      print_colored_name_no_pad env dir name = name) :
    col_width_of (read_loop children).2 = 5 ∧
    cols_of (get_terminal_width env) (col_width_of (read_loop children).2) = 4 ∧
    rows_of (sorted_files children).length
      (cols_of (get_terminal_width env) (col_width_of (read_loop children).2)) = 1 ∧
    do_ls env dir = ⟨"a    bb   ccc  \n".toList, []⟩ := by
  have hperm := (sorted_files_perm children).trans hvis
  have hkey : ∀ a ∈ ["a".toList, "bb".toList, "ccc".toList],
      ∀ b ∈ ["a".toList, "bb".toList, "ccc".toList],
      compare_names a b ≤ 0 → compare_names b a ≤ 0 → a = b := by decide
  have hsorted : ["a".toList, "bb".toList, "ccc".toList].Pairwise
      (fun a b => compare_names a b ≤ 0) := by decide
  have hfiles : sorted_files children = ["a".toList, "bb".toList, "ccc".toList] :=
    List.Perm.eq_of_sorted (fun a b ha hb => hkey a (hperm.subset ha) b hb)
      (qsort_sorted _) hsorted hperm
  have hstored : (read_loop children).1.Perm ["a".toList, "bb".toList, "ccc".toList] := by
    rw [read_loop_files]; exact hvis
  have hne : (read_loop children).1 ≠ [] := by
    intro h; rw [h] at hstored; exact absurd hstored.length_eq (by decide)
  have hlen : (read_loop children).1.length = 3 := hstored.length_eq
  have hmax : (read_loop children).2 = 3 := by
    obtain ⟨hle, f, hf, hfl⟩ := max_len_of_spec (read_loop children).1 hne
    rw [← read_loop_max_len] at hle hfl
    have h3 := hle "ccc".toList (hstored.symm.subset (by decide))
    have hf' := hstored.subset hf
    have : f.length ≤ 3 := by
      rcases List.mem_cons.mp hf' with rfl | hf'
      · decide
      rcases List.mem_cons.mp hf' with rfl | hf'
      · decide
      rcases List.mem_cons.mp hf' with rfl | hf'
      · decide
      · cases hf'
    have h3' : ("ccc".toList).length = 3 := by decide
    omega
  have hcells : do_ls_cells ["a".toList, "bb".toList, "ccc".toList] 3 20
      = [["a".toList, "bb".toList, "ccc".toList]] := by decide
  refine ⟨by rw [hmax]; decide, by rw [hw, hmax]; decide, by rw [hfiles, hw, hmax]; decide, ?_⟩
  unfold do_ls
  rw [hr]
  simp only [hlen, hmax, hfiles, hw, hcells]
  have ha := hplain "a".toList (by decide)
  have hb := hplain "bb".toList (by decide)
  have hc := hplain "ccc".toList (by decide)
  simp only [List.flatMap_cons, List.flatMap_nil, print_colored_name_padded, ha, hb, hc]
  decide

/-- The scenario system: `ccc`, `a`, `bb` on disk, plain regular files, 20 columns. -/
theorem do_ls_scenario_witness :
    scenario_env.readdir ".".toList = some ["ccc".toList, "a".toList, "bb".toList] ∧
    do_ls scenario_env ".".toList = ⟨"a    bb   ccc  \n".toList, []⟩ :=
  ⟨by decide,
    (do_ls_scenario scenario_env ".".toList ["ccc".toList, "a".toList, "bb".toList]
      (by decide) (by decide) (by decide) (by decide)).2.2.2⟩


theorem sum_map_const {α : Type} (l : List α) (f : α → Nat) (k : Nat)
    (h : ∀ x ∈ l, f x = k) : (l.map f).sum = l.length * k := by
  induction l with
  | nil => simp
  | cons x xs ih =>
    rw [List.map_cons, List.sum_cons, h x (List.mem_cons_self _ _),
      ih (fun y hy => h y (List.mem_cons_of_mem _ hy)), List.length_cons, Nat.succ_mul,
      Nat.add_comm]

/-- A name no longer than `max_len` gets the padding `col_width - len(name) >= 2`, unclamped,
and its cell is exactly `col_width` wide. -/
theorem visible_width_eq (max_len : Nat) (name : Name) (h : name.length ≤ max_len) :
    pad_of (col_width_of max_len) name = col_width_of max_len - name.length ∧
    2 ≤ pad_of (col_width_of max_len) name ∧
    visible_width (col_width_of max_len) name = col_width_of max_len := by
  unfold visible_width
  rw [pad_of_eq, col_width_of_eq]
  omega

theorem rows_of_le_count (count cols : Nat) (hcount : 1 ≤ count) (hcols : 1 ≤ cols) :
    rows_of count cols ≤ count := by
  unfold rows_of
  apply Nat.div_le_of_le_mul
  have h1 : cols * count = count + (cols - 1) * count := by
    have : cols = 1 + (cols - 1) := by omega
    conv => lhs; rw [this, Nat.add_mul, Nat.one_mul]
  have h2 : (cols - 1) * 1 ≤ (cols - 1) * count := Nat.mul_le_mul_left _ hcount
  omega

theorem cols_mul_col_width_le (term_width col_width : Nat) (hfit : col_width ≤ term_width)
    (hpos : 0 < col_width) : cols_of term_width col_width * col_width ≤ term_width := by
  have h1 : 1 ≤ term_width / col_width := (Nat.one_le_div_iff hpos).mpr hfit
  have h2 : cols_of term_width col_width = term_width / col_width := by
    unfold cols_of
    simp only
    split <;> omega
  rw [h2]
  exact Nat.div_mul_le_self _ _

/-- Every row of the grid of `do_ls` holds a cell and is no wider than the terminal, when
one column fits. -/
theorem do_ls_cells_fit (files : List Name) (max_len term_width : Nat) (hne : files ≠ [])
    (hlen : ∀ f ∈ files, f.length ≤ max_len) (hfit : col_width_of max_len ≤ term_width) :
    ∀ row ∈ do_ls_cells files max_len term_width,
      row ≠ [] ∧ line_width (col_width_of max_len) row ≤ term_width := by
  intro row hrow
  unfold do_ls_cells at hrow
  simp only at hrow
  obtain ⟨irow, hirow, rfl⟩ := List.mem_map.mp hrow
  unfold do_ls_grid at hirow
  obtain ⟨r, hr, rfl⟩ := List.mem_map.mp hirow
  have hr' := List.mem_range.mp hr
  have hcols := cols_of_pos term_width (col_width_of max_len)
  have hcount : 1 ≤ files.length := List.length_pos.mpr hne
  have hrc := rows_of_le_count files.length _ hcount hcols
  constructor
  · have hmem : r ∈ do_ls_row files.length
        (rows_of files.length (cols_of term_width (col_width_of max_len)))
        (cols_of term_width (col_width_of max_len)) r := by
      rw [mem_do_ls_row]
      exact ⟨0, hcols, by simp, by omega⟩
    intro hnil
    rw [List.map_eq_nil_iff] at hnil
    rw [hnil] at hmem
    cases hmem
  · unfold line_width
    rw [List.map_map, sum_map_const _ _ (col_width_of max_len)]
    · have h1 := do_ls_row_length_le files.length
        (rows_of files.length (cols_of term_width (col_width_of max_len)))
        (cols_of term_width (col_width_of max_len)) r
      have h2 := cols_mul_col_width_le term_width (col_width_of max_len) hfit
        (by rw [col_width_of_eq]; omega)
      exact Nat.le_trans (Nat.mul_le_mul_right _ h1) h2
    · intro idx hidx
      obtain ⟨c, _, _, hlt⟩ := (mem_do_ls_row _ _ _ _ _).mp hidx
      have hmem : files.getD idx [] ∈ files := by
        rw [List.getD_eq_getElem?_getD, List.getElem?_eq_getElem hlt]
        exact List.getElem_mem hlt
      exact (visible_width_eq max_len _ (hlen _ hmem)).2.2

/-- Every line of the horizontal loop holds a cell and is no wider than the terminal, when
one column fits; `current` is the width of the line being filled. -/
theorem horizontal_lines_fit (col_width term_width : Nat) (hfit : col_width ≤ term_width)
    (rest : List Name) (current : Nat) (line : List Name)
    (hcell : ∀ n ∈ line ++ rest, visible_width col_width n = col_width)
    (hcur : line_width col_width line = current) (hle : current ≤ term_width)
    (hsome : line ≠ [] ∨ rest ≠ []) :
    ∀ l ∈ horizontal_lines col_width term_width current line rest,
      l ≠ [] ∧ line_width col_width l ≤ term_width := by
  induction rest generalizing current line with
  | nil =>
    intro l hl
    unfold horizontal_lines at hl
    rcases List.mem_singleton.mp hl with rfl
    refine ⟨?_, by omega⟩
    rcases hsome with h | h
    · exact h
    · exact absurd rfl h
  | cons name rest ih =>
    intro l hl
    have hname : visible_width col_width name = col_width :=
      hcell name (by simp)
    unfold horizontal_lines at hl
    split at hl
    · rename_i hgt
      rcases List.mem_cons.mp hl with rfl | hl
      · refine ⟨?_, by omega⟩
        intro hnil
        rw [hnil] at hcur
        simp [line_width] at hcur
        omega
      · refine ih (0 + col_width) [name] ?_ ?_ (by omega) (Or.inl (by simp)) l hl
        · intro n hn
          exact hcell n (by
            rcases List.mem_append.mp hn with h | h
            · rcases List.mem_singleton.mp h with rfl; simp
            · simp [h])
        · simp [line_width, hname]
    · rename_i hngt
      refine ih (current + col_width) (line ++ [name]) ?_ ?_ (by omega) (Or.inl (by simp)) l hl
      · intro n hn
        exact hcell n (by simpa using hn)
      · unfold line_width at hcur ⊢
        rw [List.map_append, List.sum_append, hcur]
        simp [hname]

/-- The bytes of the horizontal loop are its lines, each followed by a line break. -/
theorem horizontal_text (env : Env) (dir : Name) (col_width term_width : Nat)
    (rest : List Name) (current placed : Nat) (line : List Name) :
    (line.flatMap fun name => print_colored_name_padded env dir name col_width)
        ++ (horizontal_loop col_width term_width current placed rest).flatMap
            (horizontal_bytes env dir col_width) ++ ['\n']
      = (horizontal_lines col_width term_width current line rest).flatMap
          (render_line env dir col_width) := by
  induction rest generalizing current placed line with
  | nil => simp [horizontal_loop, horizontal_lines, render_line]
  | cons name rest ih =>
    unfold horizontal_loop horizontal_lines
    split
    · rw [List.flatMap_cons, List.flatMap_cons, ← ih (0 + col_width) (0 + 1) [name]]
      simp [render_line, horizontal_bytes, print_colored_name_padded, List.append_assoc]
    · rw [List.flatMap_cons, ← ih (current + col_width) (placed + 1) (line ++ [name])]
      simp [horizontal_bytes, print_colored_name_padded, List.append_assoc]

/-- Claim C15. Lines fit the terminal: when the read loop has stored at least one name
and `col_width` (the longest name plus 2) does not exceed the terminal width, every name
printed gets the padding `col_width - len(name)`, at least 2 and unclamped, so that its
cell is exactly `col_width` wide; the output of `do_ls` is the rows of its grid and the
output of `do_ls_horizontal` the lines of its loop, each followed by one line break; and
every such row and line holds at least one cell and has visible width at most the
terminal width. -/
theorem lines_fit_terminal (env : Env) (dir : Name) (children : List Name)
    (hr : env.readdir dir = some children) (hne : (read_loop children).1 ≠ [])
    (hfit : col_width_of (read_loop children).2 ≤ get_terminal_width env) :
    (∀ name ∈ sorted_files children,
      pad_of (col_width_of (read_loop children).2) name
        = col_width_of (read_loop children).2 - name.length ∧
      2 ≤ pad_of (col_width_of (read_loop children).2) name ∧
      visible_width (col_width_of (read_loop children).2) name
        = col_width_of (read_loop children).2) ∧
    (do_ls env dir).out
      = (do_ls_cells (sorted_files children) (read_loop children).2
          (get_terminal_width env)).flatMap
            (render_line env dir (col_width_of (read_loop children).2)) ∧
    (∀ row ∈ do_ls_cells (sorted_files children) (read_loop children).2
        (get_terminal_width env),
      row ≠ [] ∧
      line_width (col_width_of (read_loop children).2) row ≤ get_terminal_width env) ∧
    (do_ls_horizontal env dir).out
      = (horizontal_lines (col_width_of (read_loop children).2) (get_terminal_width env)
          0 [] (sorted_files children)).flatMap
            (render_line env dir (col_width_of (read_loop children).2)) ∧
    (∀ line ∈ horizontal_lines (col_width_of (read_loop children).2)
        (get_terminal_width env) 0 [] (sorted_files children),
      line ≠ [] ∧
      line_width (col_width_of (read_loop children).2) line ≤ get_terminal_width env) := by
  have hcount : (read_loop children).1.length ≠ 0 := fun h => hne (List.length_eq_zero.mp h)
  have hqs : (sorted_files children).Perm (read_loop children).1 := qsort_perm _ _
  have hsne : sorted_files children ≠ [] := by
    intro h; rw [h] at hqs; exact hne hqs.symm.eq_nil
  have hlen : ∀ f ∈ sorted_files children, f.length ≤ (read_loop children).2 := by
    intro f hf
    rw [read_loop_max_len]
    exact (max_len_of_spec _ hne).1 f (hqs.subset hf)
  have hcell : ∀ name ∈ sorted_files children,
      visible_width (col_width_of (read_loop children).2) name
        = col_width_of (read_loop children).2 :=
    fun name hn => (visible_width_eq _ name (hlen name hn)).2.2
  refine ⟨fun name hn => visible_width_eq _ name (hlen name hn), ?_,
    do_ls_cells_fit _ _ _ hsne hlen hfit, ?_, ?_⟩
  · unfold do_ls
    rw [hr]
    simp only [hcount, if_false]
    rfl
  · unfold do_ls_horizontal
    rw [hr]
    simp only [hcount, if_false]
    rw [← horizontal_text env dir _ _ (sorted_files children) 0 0 []]
    simp
  · exact horizontal_lines_fit _ _ hfit (sorted_files children) 0 []
      (by simpa using hcell) (by simp [line_width]) (Nat.zero_le _) (Or.inr hsne)

/-- The current directory of the sample system: `Apple` and `banana` (`col_width` 8) on
20 columns; both listings are the one line of two cells. -/
theorem lines_fit_terminal_witness :
    (read_loop ["banana".toList, "Apple".toList, ".hidden".toList]).1 ≠ [] ∧
    col_width_of (read_loop ["banana".toList, "Apple".toList, ".hidden".toList]).2
      ≤ get_terminal_width sample_env ∧
    ∀ line ∈ horizontal_lines
        (col_width_of (read_loop ["banana".toList, "Apple".toList, ".hidden".toList]).2)
        (get_terminal_width sample_env) 0 []
        (sorted_files ["banana".toList, "Apple".toList, ".hidden".toList]),
      line ≠ [] ∧
      line_width
        (col_width_of (read_loop ["banana".toList, "Apple".toList, ".hidden".toList]).2)
        line ≤ get_terminal_width sample_env :=
  ⟨by decide, by decide,
    (lines_fit_terminal sample_env ".".toList
      ["banana".toList, "Apple".toList, ".hidden".toList]
      (by decide) (by decide) (by decide)).2.2.2.2⟩


/-! ## What the three listings render -/

theorem rows_of_zero (cols : Nat) (hcols : 1 ≤ cols) : rows_of 0 cols = 0 := by
  unfold rows_of
  exact Nat.div_eq_of_lt (by omega)

/-- Read column-major, the grid of names of `do_ls` is the array it was given. -/
theorem do_ls_cells_columnMajor (files : List Name) (max_len term_width : Nat) :
    columnMajor (do_ls_cells files max_len term_width) = files := by
  have hroom := count_le_cols_mul_rows files.length
    (cols_of term_width (col_width_of max_len)) (cols_of_pos _ _)
  unfold do_ls_cells
  simp only
  rw [columnMajor_map, columnMajor_do_ls_grid _ _ _ hroom, map_getD_range]

/-- The output of `do_ls` is the rendering of the grid of the sorted array. -/
theorem do_ls_eq (env : Env) (dir : Name) (children : List Name)
    (hr : env.readdir dir = some children) :
    do_ls env dir
      = ⟨(do_ls_cells (sorted_files children) (read_loop children).2
            (get_terminal_width env)).flatMap
          (render_line env dir (col_width_of (read_loop children).2)), []⟩ := by
  unfold do_ls
  rw [hr]
  simp only
  split
  · rename_i h0
    have hnil : sorted_files children = [] := by
      have hp : (sorted_files children).Perm (read_loop children).1 := qsort_perm _ _
      rw [List.length_eq_zero.mp h0] at hp
      exact hp.eq_nil
    rw [hnil]
    have hcells : ∀ m w, do_ls_cells [] m w = [] := by
      intro m w
      unfold do_ls_cells
      simp only [List.length_nil]
      rw [rows_of_zero _ (cols_of_pos _ _)]
      rfl
    rw [hcells]; rfl
  · rfl

/-- The output of `do_ls_horizontal` is the rendering of its loop over the sorted array. -/
theorem do_ls_horizontal_eq (env : Env) (dir : Name) (children : List Name)
    (hr : env.readdir dir = some children) :
    do_ls_horizontal env dir
      = if sorted_files children = [] then ⟨[], []⟩
        else
          ⟨(horizontal_loop (col_width_of (read_loop children).2) (get_terminal_width env)
              0 0 (sorted_files children)).flatMap
            (horizontal_bytes env dir (col_width_of (read_loop children).2)) ++ ['\n'], []⟩ := by
  have hp : (sorted_files children).Perm (read_loop children).1 := qsort_perm _ _
  unfold do_ls_horizontal
  rw [hr]
  simp only
  split
  · rename_i h0
    have hnil : sorted_files children = [] := by
      rw [List.length_eq_zero.mp h0] at hp
      exact hp.eq_nil
    rw [if_pos hnil]
  · rename_i h0
    have hne : sorted_files children ≠ [] := by
      intro hnil
      rw [hnil] at hp
      exact h0 (by rw [hp.symm.eq_nil]; rfl)
    rw [if_neg hne]

/-- Claim C8. Filter-then-sort pipeline: for every directory that can be opened and every
sequence of children the raw read returns, the array `sorted_files children` is a
rearrangement of exactly the children whose first byte is not `.`, in ascending `strcmp`
order (bytes compared as unsigned values, no case folding), the children `banana`,
`Apple`, `.hidden` giving `Apple`, `banana`; and it is what each listing renders: the
output of `do_ls` is the rendering of a grid that reads column-major as this array, the
output of `do_ls_horizontal` is the rendering of a loop whose names in order are this
array (nothing when it is empty), and `do_ls_long` is one run of `print_file_details`
for each name of this array, in order. -/
theorem filter_then_sort (env : Env) (dir : Name) (children : List Name)
    (hr : env.readdir dir = some children) :
    (sorted_files children).Perm (children.filter (fun d => !decide (d.head? = some '.'))) ∧
    (sorted_files children).Pairwise (fun a b => strcmp a b ≤ 0) ∧
    (∀ name, name ∈ sorted_files children ↔ name ∈ children ∧ name.head? ≠ some '.') ∧
    sorted_files ["banana".toList, "Apple".toList, ".hidden".toList]
      = ["Apple".toList, "banana".toList] ∧
    do_ls env dir
      = ⟨(do_ls_cells (sorted_files children) (read_loop children).2
            (get_terminal_width env)).flatMap
          (render_line env dir (col_width_of (read_loop children).2)), []⟩ ∧
    columnMajor (do_ls_cells (sorted_files children) (read_loop children).2
        (get_terminal_width env)) = sorted_files children ∧
    do_ls_horizontal env dir
      = (if sorted_files children = [] then ⟨[], []⟩
        else
          ⟨(horizontal_loop (col_width_of (read_loop children).2) (get_terminal_width env)
              0 0 (sorted_files children)).flatMap
            (horizontal_bytes env dir (col_width_of (read_loop children).2)) ++ ['\n'],
            []⟩) ∧
    (horizontal_loop (col_width_of (read_loop children).2) (get_terminal_width env)
        0 0 (sorted_files children)).map HStep.name = sorted_files children ∧
    do_ls_long env dir
      = concat_runs ((sorted_files children).map fun name =>
          print_file_details env (long_path dir name) name) := by
  have hperm := sorted_files_perm children
  refine ⟨hperm, qsort_sorted _, ?_, by decide, do_ls_eq env dir children hr,
    do_ls_cells_columnMajor _ _ _, do_ls_horizontal_eq env dir children hr,
    horizontal_loop_names _ _ _ _ _, do_ls_long_eq env dir children hr⟩
  intro name
  rw [hperm.mem_iff, List.mem_filter]
  simp

/-- The current directory of the sample system: the long listing is the line of `Apple`
followed by the line of `banana`, and the grid of `do_ls` reads column-major as `Apple`,
`banana`. -/
theorem filter_then_sort_witness :
    sample_env.readdir ".".toList
      = some ["banana".toList, "Apple".toList, ".hidden".toList] ∧
    sorted_files ["banana".toList, "Apple".toList, ".hidden".toList]
      = ["Apple".toList, "banana".toList] ∧
    do_ls_long sample_env ".".toList
      = concat_runs ((sorted_files ["banana".toList, "Apple".toList, ".hidden".toList]).map
          fun name => print_file_details sample_env (long_path ".".toList name) name) ∧
    do_ls_long sample_env ".".toList
      = some ⟨("-rw-r--r--  1 unknown  unknown      4096 Jan 01 00:00 Apple\n"
          ++ "-rw-r--r--  1 unknown  unknown      4096 Jan 01 00:00 banana\n").toList, []⟩ :=
  ⟨by decide, by decide,
    (filter_then_sort sample_env ".".toList
      ["banana".toList, "Apple".toList, ".hidden".toList] (by decide)).2.2.2.2.2.2.2.2,
    by decide⟩

end Ls
